import Mathlib

/-!
Verification of the implied-integrality presolver and its network matrix
decomposition interface.

The development shallowly embeds `src/scip/presol_implint.c` (the presolver:
union-find over rows and columns, per-row statistics, connected components of
the continuous submatrix, and the driver `findImpliedIntegers`), and models the
network matrix decomposition engine (`SCIPnetmatdec*`), whose implementation
file is not part of this tree, from its specification: an online recogniser
that accepts a row or column exactly when the matrix accepted so far, enlarged
by the new vector, is still a network matrix.  Machine doubles are modelled as
exact rationals and C int arrays as `List Int`.
-/

namespace Scip

/-! ### Union-find (presol_implint.c, lines 166-206)

The disjoint-set array stores, for every node, either the index of its parent
(a nonnegative entry) or the negated rank of its tree (a negative entry at the
root).  `disjointSetFind` walks to the root and then compresses the visited
path in place. -/

/-- Read of an entry of the disjoint-set array (C: `disjointset[i]`).  All
reads performed by the code are in bounds; out-of-range reads default to 0. -/
def dsGet (ds : List Int) (i : Nat) : Int := ds.getD i 0

/-- First loop of `disjointSetFind`: follow parent pointers while the entry is
nonnegative.  The C loop terminates because the parent structure is a forest;
the embedding carries explicit fuel, instantiated with `ds.length`, which is
shown sufficient for every forest. -/
def dsfRoot (ds : List Int) : Nat → Nat → Nat
  | 0, current => current
  | fuel + 1, current =>
    let nxt := dsGet ds current
    if 0 ≤ nxt then dsfRoot ds fuel nxt.toNat else current

/-- Second loop of `disjointSetFind`: walk the same path again, overwriting
every non-root entry on it with the root index. -/
def dsfCompress (root : Nat) : Nat → List Int → Nat → List Int
  | 0, ds, _ => ds
  | fuel + 1, ds, current =>
    let nxt := dsGet ds current
    if 0 ≤ nxt then dsfCompress root fuel (ds.set current (Int.ofNat root)) nxt.toNat
    else ds

/-- Embedding of `disjointSetFind` (presol_implint.c, lines 166-183): returns
the compressed array together with the root of the tree containing `index`. -/
def disjointSetFind (ds : List Int) (index : Nat) : List Int × Nat :=
  let root := dsfRoot ds ds.length index
  (dsfCompress root ds.length ds index, root)

/-- Embedding of `disjointSetMerge` (presol_implint.c, lines 185-206):
union by rank, where ranks are stored negated in the roots' entries. -/
def disjointSetMerge (ds : List Int) (first second : Nat) : List Int × Nat :=
  let firstRank := dsGet ds first
  let secondRank := dsGet ds second
  let p := if firstRank > secondRank then (second, first) else (first, second)
  let ds1 := ds.set p.2 (Int.ofNat p.1)
  let ds2 := if firstRank = secondRank then ds1.set p.1 (dsGet ds1 p.1 - 1) else ds1
  (ds2, p.1)

/-- `DSChain ds i r l` holds when following parent pointers from `i` visits
exactly the non-root nodes `l` (starting with `i` itself when `i` is not a
root) and ends at the root `r`. -/
inductive DSChain (ds : List Int) : Nat → Nat → List Nat → Prop
  | root (i : Nat) (h : dsGet ds i < 0) : DSChain ds i i []
  | step (i r : Nat) (l : List Nat) (h : 0 ≤ dsGet ds i)
      (ht : DSChain ds (dsGet ds i).toNat r l) : DSChain ds i r (i :: l)

/-- The disjoint-set array represents a union-find forest: parent pointers
stay in bounds and every node reaches a root. -/
def Forest (ds : List Int) : Prop :=
  ∀ i, i < ds.length →
    (0 ≤ dsGet ds i → (dsGet ds i).toNat < ds.length) ∧ ∃ r l, DSChain ds i r l

theorem dschain_unique {ds : List Int} {i r r' : Nat} {l l' : List Nat}
    (h : DSChain ds i r l) (h' : DSChain ds i r' l') : r = r' ∧ l = l' := by
  induction h generalizing l' with
  | root i hneg =>
    cases h' with
    | root _ _ => exact ⟨rfl, rfl⟩
    | step _ _ _ hpos _ => omega
  | step i r l hpos ht ih =>
    cases h' with
    | root _ hneg => omega
    | step _ _ l₂ hpos₂ ht₂ =>
      obtain ⟨hr, hl⟩ := ih ht₂
      exact ⟨hr, by rw [hl]⟩

theorem dschain_root_neg {ds : List Int} {i r : Nat} {l : List Nat}
    (h : DSChain ds i r l) : dsGet ds r < 0 := by
  induction h with
  | root i hneg => exact hneg
  | step i r l hpos ht ih => exact ih

theorem dschain_mem {ds : List Int} {i r : Nat} {l : List Nat}
    (h : DSChain ds i r l) {j : Nat} (hj : j ∈ l) :
    ∃ t, DSChain ds j r t ∧ t.length ≤ l.length := by
  induction h with
  | root i hneg => cases hj
  | step i r l hpos ht ih =>
    rcases List.mem_cons.mp hj with rfl | hj'
    · exact ⟨j :: l, DSChain.step j r l hpos ht, le_refl _⟩
    · obtain ⟨t, htc, hlen⟩ := ih hj'
      exact ⟨t, htc, hlen.trans (Nat.le_succ _)⟩

theorem dschain_mem_nonneg {ds : List Int} {i r : Nat} {l : List Nat}
    (h : DSChain ds i r l) {j : Nat} (hj : j ∈ l) : 0 ≤ dsGet ds j := by
  induction h with
  | root i hneg => cases hj
  | step i r l hpos ht ih =>
    rcases List.mem_cons.mp hj with rfl | hj'
    · exact hpos
    · exact ih hj'

theorem dschain_nodup {ds : List Int} {i r : Nat} {l : List Nat}
    (h : DSChain ds i r l) : l.Nodup := by
  induction h with
  | root i hneg => exact List.nodup_nil
  | step i r l hpos ht ih =>
    refine List.nodup_cons.mpr ⟨?_, ih⟩
    intro hmem
    obtain ⟨t, htc, hlen⟩ := dschain_mem ht hmem
    obtain ⟨-, hteq⟩ := dschain_unique htc (DSChain.step i r l hpos ht)
    rw [hteq] at hlen
    simp at hlen

theorem dschain_root_not_mem {ds : List Int} {i r : Nat} {l : List Nat}
    (h : DSChain ds i r l) : r ∉ l := by
  intro hmem
  have h1 := dschain_mem_nonneg h hmem
  have h2 := dschain_root_neg h
  omega

theorem dschain_bounds {ds : List Int} (hF : Forest ds) {i r : Nat} {l : List Nat}
    (h : DSChain ds i r l) (hi : i < ds.length) : ∀ j ∈ l, j < ds.length := by
  induction h with
  | root i hneg => intro j hj; cases hj
  | step i r l hpos ht ih =>
    intro j hj
    have hnxt : (dsGet ds i).toNat < ds.length := (hF i hi).1 hpos
    rcases List.mem_cons.mp hj with rfl | hj'
    · exact hi
    · exact ih hnxt j hj'

theorem nodup_bounded_length_le {l : List Nat} {n : Nat}
    (hnd : l.Nodup) (hb : ∀ j ∈ l, j < n) : l.length ≤ n := by
  classical
  have hsub : l.toFinset ⊆ Finset.range n := by
    intro x hx
    exact Finset.mem_range.mpr (hb x (List.mem_toFinset.mp hx))
  have hcard := Finset.card_le_card hsub
  rwa [List.toFinset_card_of_nodup hnd, Finset.card_range] at hcard

theorem dsfRoot_eq {ds : List Int} {i r : Nat} {l : List Nat}
    (h : DSChain ds i r l) : ∀ fuel, l.length ≤ fuel → dsfRoot ds fuel i = r := by
  induction h with
  | root i hneg =>
    intro fuel _
    cases fuel with
    | zero => rfl
    | succ f =>
      show (if 0 ≤ dsGet ds i then dsfRoot ds f (dsGet ds i).toNat else i) = i
      rw [if_neg (by omega)]
  | step i r l hpos ht ih =>
    intro fuel hfuel
    cases fuel with
    | zero => simp at hfuel
    | succ f =>
      show (if 0 ≤ dsGet ds i then dsfRoot ds f (dsGet ds i).toNat else i) = r
      rw [if_pos hpos]
      exact ih f (by simpa using Nat.lt_succ_iff.mp (Nat.lt_of_lt_of_le (Nat.lt_succ_of_le (Nat.le_refl _)) hfuel))

theorem dsGet_set_ne {ds : List Int} {j x : Nat} (v : Int) (hne : x ≠ j) :
    dsGet (ds.set j v) x = dsGet ds x := by
  unfold dsGet
  rw [List.getD_eq_getElem?_getD, List.getD_eq_getElem?_getD,
    List.getElem?_set_ne (by omega)]

theorem dsGet_set_self {ds : List Int} {j : Nat} (v : Int) (hj : j < ds.length) :
    dsGet (ds.set j v) j = v := by
  unfold dsGet
  rw [List.getD_eq_getElem?_getD, List.getElem?_set_self (by omega)]
  rfl

theorem dschain_set_ne {ds : List Int} {i r : Nat} {l : List Nat}
    (h : DSChain ds i r l) {j : Nat} (hj : j ∉ l) (hjr : j ≠ r) (v : Int) :
    DSChain (ds.set j v) i r l := by
  induction h with
  | root i hneg =>
    exact DSChain.root i (by rwa [dsGet_set_ne v (fun hij => hjr (hij.symm))])
  | step i r l hpos ht ih =>
    have hji : j ≠ i := fun hji => hj (hji ▸ List.mem_cons_self i l)
    have hrw : dsGet (ds.set j v) i = dsGet ds i := dsGet_set_ne v (fun h => hji h.symm)
    have hjl : j ∉ l := fun hmem => hj (List.mem_cons_of_mem i hmem)
    refine DSChain.step i r l (by rwa [hrw]) ?_
    have := ih hjl hjr
    rwa [hrw]

theorem dsfCompress_spec :
    ∀ (l : List Nat) (ds : List Int) (i r : Nat), DSChain ds i r l →
    ∀ fuel, l.length ≤ fuel → (∀ j ∈ l, j < ds.length) → r ∉ l →
    (dsfCompress r fuel ds i).length = ds.length ∧
    (∀ j ∈ l, dsGet (dsfCompress r fuel ds i) j = Int.ofNat r) ∧
    (∀ j, j ∉ l → dsGet (dsfCompress r fuel ds i) j = dsGet ds j) := by
  intro l
  induction l with
  | nil =>
    intro ds i r h fuel _ _ _
    have hneg : dsGet ds i < 0 := by cases h with | root _ hneg => exact hneg
    have hrw : dsfCompress r fuel ds i = ds := by
      cases fuel with
      | zero => rfl
      | succ f =>
        show (if 0 ≤ dsGet ds i then
          dsfCompress r f (ds.set i (Int.ofNat r)) (dsGet ds i).toNat else ds) = ds
        rw [if_neg (by omega)]
    rw [hrw]
    exact ⟨rfl, fun j hj => absurd hj (List.not_mem_nil j), fun j _ => rfl⟩
  | cons a l ih =>
    intro ds i r h fuel hfuel hb hrl
    have hai : a = i := by cases h with | step _ _ _ _ _ => rfl
    subst hai
    have hpos : 0 ≤ dsGet ds a := by cases h with | step _ _ _ hpos _ => exact hpos
    have ht : DSChain ds (dsGet ds a).toNat r l := by
      cases h with | step _ _ _ _ ht => exact ht
    have hnd : (a :: l).Nodup := dschain_nodup h
    cases fuel with
    | zero => simp at hfuel
    | succ f =>
      have hil : a ∉ l := (List.nodup_cons.mp hnd).1
      have hir : a ≠ r := fun hir => hrl (hir ▸ List.mem_cons_self a l)
      have hilen : a < ds.length := hb a (List.mem_cons_self a l)
      have hrl' : r ∉ l := fun hm => hrl (List.mem_cons_of_mem a hm)
      -- the chain from the next node survives the write at `a`
      have ht' : DSChain (ds.set a (Int.ofNat r)) (dsGet ds a).toNat r l :=
        dschain_set_ne ht hil hir _
      have hb' : ∀ j ∈ l, j < (ds.set a (Int.ofNat r)).length := by
        intro j hj
        rw [List.length_set]
        exact hb j (List.mem_cons_of_mem a hj)
      have hstep : dsfCompress r (f + 1) ds a
          = dsfCompress r f (ds.set a (Int.ofNat r)) (dsGet ds a).toNat := by
        show (if 0 ≤ dsGet ds a then
          dsfCompress r f (ds.set a (Int.ofNat r)) (dsGet ds a).toNat else ds)
          = dsfCompress r f (ds.set a (Int.ofNat r)) (dsGet ds a).toNat
        rw [if_pos hpos]
      obtain ⟨hlen, hin, hout⟩ :=
        ih (ds.set a (Int.ofNat r)) (dsGet ds a).toNat r ht' f (by simpa using hfuel)
          hb' hrl'
      rw [hstep]
      refine ⟨by rw [hlen, List.length_set], ?_, ?_⟩
      · intro j hj
        rcases List.mem_cons.mp hj with rfl | hj'
        · rw [hout j hil, dsGet_set_self _ hilen]
        · exact hin j hj'
      · intro j hj
        have hji : j ≠ a := fun hji => hj (hji ▸ List.mem_cons_self a l)
        have hjl : j ∉ l := fun hm => hj (List.mem_cons_of_mem a hm)
        rw [hout j hjl, dsGet_set_ne _ hji]

theorem dschain_to_compressed {ds ds' : List Int} {r₀ : Nat} {l₀ : List Nat}
    (hin : ∀ j ∈ l₀, dsGet ds' j = Int.ofNat r₀)
    (hout : ∀ j, j ∉ l₀ → dsGet ds' j = dsGet ds j)
    (hmain : ∀ j ∈ l₀, ∃ t, DSChain ds j r₀ t)
    (hnn : ∀ j ∈ l₀, 0 ≤ dsGet ds j)
    (hroot : dsGet ds r₀ < 0) (hr₀ : r₀ ∉ l₀)
    {j r : Nat} {l : List Nat} (h : DSChain ds j r l) :
    ∃ l', DSChain ds' j r l' := by
  induction h with
  | root i hneg =>
    have hi : i ∉ l₀ := by
      intro hmem
      have := hnn i hmem
      omega
    exact ⟨[], DSChain.root i (by rw [hout i hi]; exact hneg)⟩
  | step i r l hpos ht ih =>
    by_cases hi : i ∈ l₀
    · obtain ⟨t, htc⟩ := hmain i hi
      have hreq : r = r₀ :=
        (dschain_unique (DSChain.step i r l hpos ht) htc).1
      subst hreq
      have h1 : dsGet ds' i = Int.ofNat r := hin i hi
      have h2 : dsGet ds' r < 0 := by rw [hout r hr₀]; exact hroot
      refine ⟨[i], DSChain.step i r [] (by rw [h1]; exact Int.ofNat_nonneg r) ?_⟩
      have : (dsGet ds' i).toNat = r := by rw [h1]; rfl
      rw [this]
      exact DSChain.root r h2
    · obtain ⟨l', hl'⟩ := ih
      have hrw : dsGet ds' i = dsGet ds i := hout i hi
      refine ⟨i :: l', DSChain.step i r l' (by rwa [hrw]) (by rwa [hrw])⟩

theorem dschain_from_compressed {ds ds' : List Int} {r₀ : Nat} {l₀ : List Nat}
    (hin : ∀ j ∈ l₀, dsGet ds' j = Int.ofNat r₀)
    (hout : ∀ j, j ∉ l₀ → dsGet ds' j = dsGet ds j)
    (hmain : ∀ j ∈ l₀, ∃ t, DSChain ds j r₀ t)
    (hnn : ∀ j ∈ l₀, 0 ≤ dsGet ds j)
    (hroot : dsGet ds r₀ < 0) (hr₀ : r₀ ∉ l₀)
    {j r : Nat} {l : List Nat} (h : DSChain ds' j r l) :
    ∃ l', DSChain ds j r l' := by
  induction h with
  | root i hneg =>
    have hi : i ∉ l₀ := by
      intro hmem
      have h1 := hin i hmem
      have h2 : 0 ≤ Int.ofNat r₀ := Int.ofNat_nonneg r₀
      omega
    exact ⟨[], DSChain.root i (by rw [hout i hi] at hneg; exact hneg)⟩
  | step i r l hpos ht ih =>
    by_cases hi : i ∈ l₀
    · -- in the compressed array, `i` points directly at the root `r₀`
      have h1 : dsGet ds' i = Int.ofNat r₀ := hin i hi
      have h2 : (dsGet ds' i).toNat = r₀ := by rw [h1]; rfl
      have hreq : r = r₀ := by
        rw [h2] at ht
        have hneg' : dsGet ds' r₀ < 0 := by rw [hout r₀ hr₀]; exact hroot
        cases ht with
        | root _ _ => rfl
        | step _ _ _ hpos' _ => omega
      subst hreq
      exact hmain i hi
    · obtain ⟨l', hl'⟩ := ih
      have hrw : dsGet ds' i = dsGet ds i := hout i hi
      refine ⟨i :: l', DSChain.step i r l' (by rwa [hrw] at hpos) ?_⟩
      rwa [hrw] at hl'

theorem dsfCompress_at_root {ds : List Int} {i r : Nat} (hneg : dsGet ds i < 0) :
    ∀ fuel, dsfCompress r fuel ds i = ds := by
  intro fuel
  cases fuel with
  | zero => rfl
  | succ f =>
    show (if 0 ≤ dsGet ds i then
      dsfCompress r f (ds.set i (Int.ofNat r)) (dsGet ds i).toNat else ds) = ds
    rw [if_neg (by omega)]

theorem list_set_eq_self {ds : List Int} {i : Nat} {v : Int}
    (h : dsGet ds i = v) (hi : i < ds.length) : ds.set i v = ds := by
  apply List.ext_getElem?
  intro j
  by_cases hj : j = i
  · subst hj
    rw [List.getElem?_set_self (by omega)]
    unfold dsGet at h
    rw [List.getD_eq_getElem?_getD] at h
    cases hjq : ds[j]? with
    | none =>
      rw [List.getElem?_eq_none_iff] at hjq
      omega
    | some w =>
      rw [hjq] at h
      simp at h
      rw [h]
  · rw [List.getElem?_set_ne (fun he => hj he.symm)]

theorem dsfCompress_direct {ds : List Int} {i r : Nat}
    (h1 : dsGet ds i = Int.ofNat r) (hi : i < ds.length) (h2 : dsGet ds r < 0) :
    ∀ fuel, dsfCompress r fuel ds i = ds := by
  intro fuel
  cases fuel with
  | zero => rfl
  | succ f =>
    show (if 0 ≤ dsGet ds i then
      dsfCompress r f (ds.set i (Int.ofNat r)) (dsGet ds i).toNat else ds) = ds
    rw [if_pos (by rw [h1]; exact Int.ofNat_nonneg r), list_set_eq_self h1 hi, h1]
    show dsfCompress r f ds r = ds
    exact dsfCompress_at_root h2 f

/-- Claim C9: for every disjoint-set array that represents a union-find forest
(roots holding negative rank values) and every valid index, `disjointSetFind`
returns the root of the tree containing that index; the in-place path
compression leaves the partition into sets unchanged (every node keeps the
same root); and an immediately repeated call on the same index returns the
same root and leaves the array untouched. -/
theorem claim_C9 (ds : List Int) (index r : Nat) (l : List Nat)
    (hF : Forest ds) (hi : index < ds.length) (h : DSChain ds index r l) :
    (disjointSetFind ds index).2 = r ∧
    (∀ j r', (∃ t, DSChain ds j r' t) ↔
      (∃ t, DSChain (disjointSetFind ds index).1 j r' t)) ∧
    disjointSetFind (disjointSetFind ds index).1 index
      = ((disjointSetFind ds index).1, r) := by
  have hnd := dschain_nodup h
  have hb := dschain_bounds hF h hi
  have hrl := dschain_root_not_mem h
  have hroot := dschain_root_neg h
  have hlen : l.length ≤ ds.length := nodup_bounded_length_le hnd hb
  have hr1 : dsfRoot ds ds.length index = r := dsfRoot_eq h ds.length hlen
  obtain ⟨hclen, hin, hout⟩ := dsfCompress_spec l ds index r h ds.length hlen hb hrl
  have hmain : ∀ j ∈ l, ∃ t, DSChain ds j r t := by
    intro j hj
    obtain ⟨t, ht, -⟩ := dschain_mem h hj
    exact ⟨t, ht⟩
  have hnn : ∀ j ∈ l, 0 ≤ dsGet ds j := fun j hj => dschain_mem_nonneg h hj
  have hfind : disjointSetFind ds index = (dsfCompress r ds.length ds index, r) := by
    unfold disjointSetFind
    rw [hr1]
  refine ⟨by rw [hfind], ?_, ?_⟩
  · intro j r'
    rw [hfind]
    constructor
    · rintro ⟨t, ht⟩
      exact dschain_to_compressed hin hout hmain hnn hroot hrl ht
    · rintro ⟨t, ht⟩
      exact dschain_from_compressed hin hout hmain hnn hroot hrl ht
  · rw [hfind]
    cases h with
    | root _ hneg =>
      have hceq : dsfCompress index ds.length ds index = ds :=
        dsfCompress_at_root hneg ds.length
      rw [hceq]
      show disjointSetFind ds index = (ds, index)
      rw [hfind, hceq]
    | step _ _ l' hpos ht =>
      -- after compression, `index` points directly at the root `r`
      have hmem : index ∈ index :: l' := List.mem_cons_self index l'
      have h1 : dsGet (dsfCompress r ds.length ds index) index = Int.ofNat r :=
        hin index hmem
      have h2 : dsGet (dsfCompress r ds.length ds index) r = dsGet ds r :=
        hout r hrl
      have hchain' : DSChain (dsfCompress r ds.length ds index) index r [index] := by
        refine DSChain.step index r [] (by rw [h1]; exact Int.ofNat_nonneg r) ?_
        have heq : (dsGet (dsfCompress r ds.length ds index) index).toNat = r := by
          rw [h1]; rfl
        rw [heq]
        exact DSChain.root r (by rw [h2]; exact hroot)
      have hlen1 : ([index] : List Nat).length ≤ (dsfCompress r ds.length ds index).length := by
        rw [hclen]
        simp
        omega
      have hr2 : dsfRoot (dsfCompress r ds.length ds index)
          (dsfCompress r ds.length ds index).length index = r :=
        dsfRoot_eq hchain' _ hlen1
      show (dsfCompress
          (dsfRoot (dsfCompress r ds.length ds index)
            (dsfCompress r ds.length ds index).length index)
          (dsfCompress r ds.length ds index).length
          (dsfCompress r ds.length ds index) index,
        dsfRoot (dsfCompress r ds.length ds index)
          (dsfCompress r ds.length ds index).length index)
        = (dsfCompress r ds.length ds index, r)
      rw [hr2]
      rw [dsfCompress_direct h1 (by rw [hclen]; exact hi) (by rw [h2]; exact hroot)]

theorem forest_example : Forest ([-1, 0, 1] : List Int) := by
  intro i hi
  simp at hi
  interval_cases i
  · exact ⟨by decide, 0, [], DSChain.root 0 (by decide)⟩
  · exact ⟨by decide, 0, [1], DSChain.step 1 0 [] (by decide) (DSChain.root 0 (by decide))⟩
  · exact ⟨by decide, 0, [2, 1], DSChain.step 2 0 [1] (by decide)
      (DSChain.step 1 0 [] (by decide) (DSChain.root 0 (by decide)))⟩

theorem claim_C9_witness :
    (disjointSetFind ([-1, 0, 1] : List Int) 2).2 = 0 ∧
    (disjointSetFind ([-1, 0, 1] : List Int) 2).1 = [-1, 0, 0] ∧
    disjointSetFind (disjointSetFind ([-1, 0, 1] : List Int) 2).1 2
      = ((disjointSetFind ([-1, 0, 1] : List Int) 2).1, 0) := by
  have h := claim_C9 ([-1, 0, 1] : List Int) 2 0 [2, 1] forest_example (by decide)
    (DSChain.step 2 0 [1] (by decide)
      (DSChain.step 1 0 [] (by decide) (DSChain.root 0 (by decide))))
  exact ⟨h.1, by decide, h.2.2⟩

/-! ### Network matrix decomposition engine

The implementation of the engine (`network.c`, declared in `pub_network.h`) is
not part of this tree; only its callers and its unit tests are.  The engine is
therefore modelled from the specification: the observable content of a
decomposition is the set of accepted rows and columns together with the
accepted matrix entries, and a `try_add_*` call succeeds exactly when the
matrix accepted so far, enlarged with the new vector, is still a network
matrix.  A matrix is a network matrix when there is a directed graph with a
spanning tree such that every column is the signed incidence vector of the
fundamental cycle of a non-tree arc: equivalently, orienting each support
entry by its sign must yield a directed path through the tree arcs assigned
to the support's rows. -/

/-- Modelled from the spec (§3, §6.1): the decomposition of the matrix
accepted so far.  Row and column ids enter either by being added directly or
by being co-added by a vector that mentions them (§6.2). -/
structure NetMatDec where
  maxRows : Nat
  maxCols : Nat
  rowIds : List Nat
  colIds : List Nat
  entries : List (Nat × Nat × ℚ)
deriving DecidableEq

/-- Modelled from the spec (§7): the outcome classes of a `try_add_*` call
that concern a single call — accepted, rejected (the plain `false` verdict),
and invalid input, which is distinguishable from both. -/
inductive AddResult
  | accepted
  | rejected
  | invalid
deriving DecidableEq

/-- Modelled from the spec (§6.1): `create(max_rows, max_cols)` builds an
empty decomposition with fixed capacities. -/
def create (maxRows maxCols : Nat) : NetMatDec :=
  ⟨maxRows, maxCols, [], [], []⟩

/-- Entries of column `c` of the accepted matrix, as (row, value) pairs. -/
def colSupport (d : NetMatDec) (c : Nat) : List (Nat × ℚ) :=
  d.entries.filterMap (fun e => if e.2.1 = c then some (e.1, e.2.2) else none)

/-- All ordered pairs over `n` vertices: the candidate (tail, head) arcs. -/
def allPairs (n : Nat) : List (Nat × Nat) :=
  (List.range n).flatMap (fun a => (List.range n).map (fun b => (a, b)))

/-- One expansion step of the set of vertices reachable through the
undirected versions of the given arcs. -/
def growStep (edges : List (Nat × Nat)) (s : List Nat) : List Nat :=
  edges.foldl (fun acc e =>
    if acc.contains e.1 && !acc.contains e.2 then e.2 :: acc
    else if acc.contains e.2 && !acc.contains e.1 then e.1 :: acc
    else acc) s

/-- Vertices reachable from vertex 0 in at most `k` expansion rounds. -/
def reachIter (edges : List (Nat × Nat)) : Nat → List Nat
  | 0 => [0]
  | k + 1 => growStep edges (reachIter edges k)

/-- The arcs form a spanning tree of a graph on `m + 1` vertices: there are
exactly `m` of them, their endpoints are in range, and every vertex is
reachable from vertex 0 (a connected graph with `m` edges on `m + 1` vertices
is a tree). -/
def isTreeB (m : Nat) (arcs : List (Nat × Nat)) : Bool :=
  arcs.length == m &&
  arcs.all (fun p => decide (p.1 < m + 1) && decide (p.2 < m + 1)) &&
  (List.range (m + 1)).all (fun v => (reachIter arcs (m + 1)).contains v)

/-- Does the list of directed arcs form a directed path, each arc's head
meeting the next arc's tail? -/
def isChainB : List (Nat × Nat) → Bool
  | [] => true
  | [_] => true
  | (_, b) :: (c, d) :: rest => b == c && isChainB ((c, d) :: rest)

/-- Orient the tree arc of each support row by the support's sign: `+1`
traverses the arc forwards, `-1` backwards.  `none` when a support row has no
assigned tree arc. -/
def dirArcs? (rowIds : List Nat) (arcs : List (Nat × Nat))
    (support : List (Nat × ℚ)) : Option (List (Nat × Nat)) :=
  support.mapM (fun (cell : Nat × ℚ) =>
    match rowIds.findIdx? (· == cell.1) with
    | none => none
    | some idx =>
      match arcs[idx]? with
      | none => none
      | some a => if cell.2 = 1 then some a else some (a.2, a.1))

/-- All insertions of `x` into a list (auxiliary for `permsL`). -/
def inserts (x : Nat × Nat) : List (Nat × Nat) → List (List (Nat × Nat))
  | [] => [[x]]
  | y :: ys => (x :: y :: ys) :: (inserts x ys).map (y :: ·)

/-- All permutations of a list of directed arcs (structural recursion, so
that concrete instances evaluate inside the kernel). -/
def permsL : List (Nat × Nat) → List (List (Nat × Nat))
  | [] => [[]]
  | x :: xs => (permsL xs).flatMap (inserts x)

/-- The directed arcs can be ordered into a directed path: the signed support
is the fundamental cycle of a non-tree arc joining the path's endpoints. -/
def chainRealizable (dirs : List (Nat × Nat)) : Bool :=
  (permsL dirs).any isChainB

/-- Do the candidate tree arcs (one per accepted row, in `rowIds` order)
witness that the accepted matrix is a network matrix? -/
def goodArcs (d : NetMatDec) (arcs : List (Nat × Nat)) : Bool :=
  isTreeB d.rowIds.length arcs &&
  d.colIds.all (fun c =>
    match dirArcs? d.rowIds arcs (colSupport d c) with
    | some dirs => chainRealizable dirs
    | none => false)

/-- Modelled from the spec (glossary, §1): the accepted matrix is a network
matrix — some assignment of directed spanning-tree arcs to its rows realises
every accepted column as the signed incidence vector of a fundamental
cycle. -/
def IsNetworkMatrix (d : NetMatDec) : Prop :=
  ∃ arcs : List (Nat × Nat), goodArcs d arcs = true

/-- Exhaustive search for witness arcs: try every list of `k` candidate arcs
in front of `acc`. -/
def searchArcs (cand : List (Nat × Nat)) (P : List (Nat × Nat) → Bool) :
    Nat → List (Nat × Nat) → Bool
  | 0, acc => P acc
  | k + 1, acc => cand.any (fun x => searchArcs cand P k (x :: acc))

/-- Decision procedure for `IsNetworkMatrix`: search all arc assignments over
`m + 1` vertices. -/
def netSearch (d : NetMatDec) : Bool :=
  searchArcs (allPairs (d.rowIds.length + 1)) (goodArcs d) d.rowIds.length []

theorem mem_allPairs {n : Nat} {p : Nat × Nat} :
    p ∈ allPairs n ↔ p.1 < n ∧ p.2 < n := by
  unfold allPairs
  rw [List.mem_flatMap]
  constructor
  · rintro ⟨a, ha, hp⟩
    rw [List.mem_map] at hp
    obtain ⟨b, hb, rfl⟩ := hp
    exact ⟨List.mem_range.mp ha, List.mem_range.mp hb⟩
  · rintro ⟨h1, h2⟩
    exact ⟨p.1, List.mem_range.mpr h1, List.mem_map.mpr ⟨p.2, List.mem_range.mpr h2, rfl⟩⟩

theorem searchArcs_iff (cand : List (Nat × Nat)) (P : List (Nat × Nat) → Bool) :
    ∀ (k : Nat) (acc : List (Nat × Nat)),
      searchArcs cand P k acc = true ↔
      ∃ l, l.length = k ∧ (∀ x ∈ l, x ∈ cand) ∧ P (l ++ acc) = true := by
  intro k
  induction k with
  | zero =>
    intro acc
    constructor
    · intro h
      exact ⟨[], rfl, fun x hx => absurd hx (List.not_mem_nil x), by simpa using h⟩
    · rintro ⟨l, hlen, -, hP⟩
      rw [List.length_eq_zero] at hlen
      subst hlen
      simpa using hP
  | succ k ih =>
    intro acc
    show cand.any (fun x => searchArcs cand P k (x :: acc)) = true ↔ _
    rw [List.any_eq_true]
    constructor
    · rintro ⟨x, hx, hs⟩
      obtain ⟨l, hlen, hmem, hP⟩ := (ih (x :: acc)).mp hs
      refine ⟨l ++ [x], by simp [hlen], ?_, ?_⟩
      · intro y hy
        rcases List.mem_append.mp hy with hy' | hy'
        · exact hmem y hy'
        · rw [List.mem_singleton.mp hy']
          exact hx
      · rwa [List.append_assoc, List.singleton_append]
    · rintro ⟨l, hlen, hmem, hP⟩
      have hne : l ≠ [] := by
        intro h
        rw [h] at hlen
        simp at hlen
      obtain ⟨l', x, rfl⟩ := (List.eq_nil_or_concat' l).resolve_left hne
      refine ⟨x, hmem x (by simp), (ih (x :: acc)).mpr ⟨l', ?_, ?_, ?_⟩⟩
      · have := hlen
        rw [List.length_append, List.length_singleton] at this
        omega
      · intro y hy
        exact hmem y (List.mem_append.mpr (Or.inl hy))
      · rwa [List.append_assoc, List.singleton_append] at hP

theorem goodArcs_length_bounds {d : NetMatDec} {arcs : List (Nat × Nat)}
    (h : goodArcs d arcs = true) :
    arcs.length = d.rowIds.length ∧
      ∀ p ∈ arcs, p ∈ allPairs (d.rowIds.length + 1) := by
  unfold goodArcs isTreeB at h
  rw [Bool.and_eq_true, Bool.and_eq_true, Bool.and_eq_true] at h
  obtain ⟨⟨⟨hlen, hbound⟩, -⟩, -⟩ := h
  refine ⟨Nat.beq_eq_true_eq _ _ ▸ hlen, ?_⟩
  intro p hp
  have := List.all_eq_true.mp hbound p hp
  rw [Bool.and_eq_true, decide_eq_true_eq, decide_eq_true_eq] at this
  exact mem_allPairs.mpr this

theorem netSearch_iff (d : NetMatDec) : netSearch d = true ↔ IsNetworkMatrix d := by
  unfold netSearch IsNetworkMatrix
  rw [searchArcs_iff]
  constructor
  · rintro ⟨l, -, -, hP⟩
    rw [List.append_nil] at hP
    exact ⟨l, hP⟩
  · rintro ⟨arcs, hP⟩
    obtain ⟨hlen, hbounds⟩ := goodArcs_length_bounds hP
    exact ⟨arcs, hlen, hbounds, by rwa [List.append_nil]⟩

/-- Are the elements of the list pairwise distinct? -/
def nodupB : List Nat → Bool
  | [] => true
  | x :: xs => !(xs.contains x) && nodupB xs

/-- Modelled from the spec (§6.2, §7): syntactic validity of a row addition —
the row id is in range and not previously added, every referenced column id
is in range, every value is `+1` or `-1`, and no column id repeats. -/
def rowValid (d : NetMatDec) (row : Nat) (cells : List (Nat × ℚ)) : Bool :=
  decide (row < d.maxRows) && !(d.rowIds.contains row) &&
  cells.all (fun cell => decide (cell.1 < d.maxCols) && decide (cell.2 = 1 ∨ cell.2 = -1)) &&
  nodupB (cells.map Prod.fst)

/-- Modelled from the spec (§6.2, §7): syntactic validity of a column
addition (symmetric to `rowValid`). -/
def colValid (d : NetMatDec) (col : Nat) (cells : List (Nat × ℚ)) : Bool :=
  decide (col < d.maxCols) && !(d.colIds.contains col) &&
  cells.all (fun cell => decide (cell.1 < d.maxRows) && decide (cell.2 = 1 ∨ cell.2 = -1)) &&
  nodupB (cells.map Prod.fst)

/-- The decomposition enlarged by a new row: the row id is appended, columns
not seen before are co-added, and the row's entries join the accepted
matrix. -/
def addRowState (d : NetMatDec) (row : Nat) (cells : List (Nat × ℚ)) : NetMatDec :=
  { d with
    rowIds := d.rowIds ++ [row]
    colIds := d.colIds ++ ((cells.map Prod.fst).filter (fun c => !(d.colIds.contains c)))
    entries := d.entries ++ cells.map (fun cell => (row, cell.1, cell.2)) }

/-- The decomposition enlarged by a new column (symmetric to
`addRowState`). -/
def addColState (d : NetMatDec) (col : Nat) (cells : List (Nat × ℚ)) : NetMatDec :=
  { d with
    colIds := d.colIds ++ [col]
    rowIds := d.rowIds ++ ((cells.map Prod.fst).filter (fun r => !(d.rowIds.contains r)))
    entries := d.entries ++ cells.map (fun cell => (cell.1, col, cell.2)) }

/-- Modelled from the spec (§1, §6.2): `try_add_row` fails fast on invalid
input, and otherwise accepts exactly when the enlarged matrix is still a
network matrix; a rejected or invalid attempt leaves the decomposition in the
state it had before the attempt (§5, §4.1). -/
def tryAddRow (d : NetMatDec) (row : Nat) (cells : List (Nat × ℚ)) :
    NetMatDec × AddResult :=
  if rowValid d row cells then
    if netSearch (addRowState d row cells) then (addRowState d row cells, .accepted)
    else (d, .rejected)
  else (d, .invalid)

/-- Modelled from the spec (§6.2): `try_add_col`, symmetric to
`tryAddRow`. -/
def tryAddCol (d : NetMatDec) (col : Nat) (cells : List (Nat × ℚ)) :
    NetMatDec × AddResult :=
  if colValid d col cells then
    if netSearch (addColState d col cells) then (addColState d col cells, .accepted)
    else (d, .rejected)
  else (d, .invalid)

/-- Modelled from the spec (§6.3): `verify_cycle` recomputes the fundamental
cycle the decomposition claims for a column — by invariant 7 the entries of
that column of the accepted matrix — and compares it with the supplied
support as multisets.  It never mutates. -/
def verifyCycle (d : NetMatDec) (c : Nat) (support : List (Nat × ℚ)) : Bool :=
  decide (List.Perm (colSupport d c) support)

/-- A call of one of the two mutators of the engine. -/
inductive EngCall
  | addRow (id : Nat) (cells : List (Nat × ℚ))
  | addCol (id : Nat) (cells : List (Nat × ℚ))

/-- Apply one call to the decomposition. -/
def applyCall (d : NetMatDec) : EngCall → NetMatDec × AddResult
  | .addRow id cells => tryAddRow d id cells
  | .addCol id cells => tryAddCol d id cells

/-- The matrix entries a call contributes when it is accepted. -/
def callEntries : EngCall → List (Nat × Nat × ℚ)
  | .addRow id cells => cells.map (fun cell => (id, cell.1, cell.2))
  | .addCol id cells => cells.map (fun cell => (cell.1, id, cell.2))

/-- Run a sequence of calls, also keeping an external ledger of the entries
of every accepted vector — the original supports, as the caller passed
them. -/
def runLedger : NetMatDec × List (Nat × Nat × ℚ) → List EngCall →
    NetMatDec × List (Nat × Nat × ℚ)
  | st, [] => st
  | (d, led), call :: rest =>
    let p := applyCall d call
    runLedger (p.1, if p.2 = AddResult.accepted then led ++ callEntries call else led) rest

/-- Run a sequence of calls, collecting each call's outcome. -/
def runOutcomes (d : NetMatDec) : List EngCall → NetMatDec × List AddResult
  | [] => (d, [])
  | call :: rest =>
    let p := applyCall d call
    let q := runOutcomes p.1 rest
    (q.1, p.2 :: q.2)

/-- The entries the ledger records for column `c`. -/
def ledgerColSupport (led : List (Nat × Nat × ℚ)) (c : Nat) : List (Nat × ℚ) :=
  led.filterMap (fun e => if e.2.1 = c then some (e.1, e.2.2) else none)

theorem applyCall_accepted_entries {d : NetMatDec} {call : EngCall}
    (h : (applyCall d call).2 = AddResult.accepted) :
    (applyCall d call).1.entries = d.entries ++ callEntries call := by
  cases call with
  | addRow id cells =>
    have h' : (tryAddRow d id cells).2 = AddResult.accepted := h
    show (tryAddRow d id cells).1.entries = d.entries ++ callEntries (EngCall.addRow id cells)
    unfold tryAddRow at h' ⊢
    by_cases h1 : rowValid d id cells = true
    · rw [if_pos h1] at h' ⊢
      by_cases h2 : netSearch (addRowState d id cells) = true
      · rw [if_pos h2]
        rfl
      · rw [if_neg h2] at h'
        simp at h'
    · rw [if_neg h1] at h'
      simp at h'
  | addCol id cells =>
    have h' : (tryAddCol d id cells).2 = AddResult.accepted := h
    show (tryAddCol d id cells).1.entries = d.entries ++ callEntries (EngCall.addCol id cells)
    unfold tryAddCol at h' ⊢
    by_cases h1 : colValid d id cells = true
    · rw [if_pos h1] at h' ⊢
      by_cases h2 : netSearch (addColState d id cells) = true
      · rw [if_pos h2]
        rfl
      · rw [if_neg h2] at h'
        simp at h'
    · rw [if_neg h1] at h'
      simp at h'

theorem applyCall_not_accepted {d : NetMatDec} {call : EngCall}
    (h : (applyCall d call).2 ≠ AddResult.accepted) :
    (applyCall d call).1 = d := by
  cases call with
  | addRow id cells =>
    have h' : (tryAddRow d id cells).2 ≠ AddResult.accepted := h
    show (tryAddRow d id cells).1 = d
    unfold tryAddRow at h' ⊢
    by_cases h1 : rowValid d id cells = true
    · rw [if_pos h1] at h' ⊢
      by_cases h2 : netSearch (addRowState d id cells) = true
      · rw [if_pos h2] at h'
        simp at h'
      · rw [if_neg h2]
    · rw [if_neg h1]
  | addCol id cells =>
    have h' : (tryAddCol d id cells).2 ≠ AddResult.accepted := h
    show (tryAddCol d id cells).1 = d
    unfold tryAddCol at h' ⊢
    by_cases h1 : colValid d id cells = true
    · rw [if_pos h1] at h' ⊢
      by_cases h2 : netSearch (addColState d id cells) = true
      · rw [if_pos h2] at h'
        simp at h'
      · rw [if_neg h2]
    · rw [if_neg h1]

theorem runLedger_entries (calls : List EngCall) :
    ∀ (d : NetMatDec) (led : List (Nat × Nat × ℚ)), d.entries = led →
    (runLedger (d, led) calls).1.entries = (runLedger (d, led) calls).2 := by
  induction calls with
  | nil =>
    intro d led h
    exact h
  | cons call rest ih =>
    intro d led h
    have hstep : runLedger (d, led) (call :: rest)
        = runLedger ((applyCall d call).1,
            if (applyCall d call).2 = AddResult.accepted then led ++ callEntries call
            else led) rest := rfl
    rw [hstep]
    by_cases hacc : (applyCall d call).2 = AddResult.accepted
    · rw [if_pos hacc]
      refine ih _ _ ?_
      rw [applyCall_accepted_entries hacc, h]
    · rw [if_neg hacc]
      refine ih _ _ ?_
      rw [applyCall_not_accepted hacc, h]

/-- Claim C1 (spec-modelled): for every sequence of try_add_row/try_add_col
calls on a fresh decomposition, after the accepted calls the diagnostic
verify_cycle returns true for every column present in the decomposition when
given that column's original accepted support and signs: the decomposition's
claimed fundamental cycle equals the column's nonzero entries as a
multiset. -/
theorem claim_C1 (maxRows maxCols : Nat) (calls : List EngCall) (c : Nat)
    (hc : c ∈ (runLedger (create maxRows maxCols, []) calls).1.colIds) :
    verifyCycle (runLedger (create maxRows maxCols, []) calls).1 c
      (ledgerColSupport (runLedger (create maxRows maxCols, []) calls).2 c) = true := by
  have h := runLedger_entries calls (create maxRows maxCols) [] rfl
  unfold verifyCycle
  rw [decide_eq_true_eq]
  have heq : colSupport (runLedger (create maxRows maxCols, []) calls).1 c
      = ledgerColSupport (runLedger (create maxRows maxCols, []) calls).2 c := by
    unfold colSupport ledgerColSupport
    rw [h]
  rw [heq]

theorem claim_C1_witness :
    0 ∈ (runLedger (create 1 1, []) [EngCall.addCol 0 [(0, 1)]]).1.colIds ∧
    verifyCycle (runLedger (create 1 1, []) [EngCall.addCol 0 [(0, 1)]]).1 0
      (ledgerColSupport
        (runLedger (create 1 1, []) [EngCall.addCol 0 [(0, 1)]]).2 0) = true :=
  ⟨by decide, claim_C1 1 1 [EngCall.addCol 0 [(0, 1)]] 0 (by decide)⟩

/-- Claim C2 (spec-modelled): a try_add_row or try_add_col call that returns
the rejected verdict leaves the decomposition exactly in the state it had
before the call. -/
theorem claim_C2 (d : NetMatDec) (call : EngCall)
    (h : (applyCall d call).2 = AddResult.rejected) :
    (applyCall d call).1 = d := by
  refine applyCall_not_accepted ?_
  rw [h]
  decide

/-- The decomposition holding the first column of the seed matrix S2,
`[+1 +1; +1 0; -1 +1]`: rows 0, 1, 2 were co-added by column 0. -/
def decS2 : NetMatDec :=
  ⟨3, 2, [0, 1, 2], [0], [(0, 0, 1), (1, 0, 1), (2, 0, -1)]⟩

/-- The decomposition enlarged by the second column of S2, whose addition the
engine must reject. -/
def decS2c1 : NetMatDec := addColState decS2 1 [(0, 1), (2, 1)]

theorem allPairs_four : allPairs 4 = [(0, 0), (0, 1), (0, 2), (0, 3), (1, 0), (1, 1), (1, 2), (1, 3), (2, 0), (2, 1), (2, 2), (2, 3), (3, 0), (3, 1), (3, 2), (3, 3)] := by decide

set_option maxRecDepth 10000 in
theorem s2cSub00 : searchArcs [(0, 0), (0, 1), (0, 2), (0, 3), (1, 0), (1, 1), (1, 2), (1, 3), (2, 0), (2, 1), (2, 2), (2, 3), (3, 0), (3, 1), (3, 2), (3, 3)] (goodArcs decS2c1) 2 [(0, 0)] = false := by decide

set_option maxRecDepth 10000 in
theorem s2cSub01 : searchArcs [(0, 0), (0, 1), (0, 2), (0, 3), (1, 0), (1, 1), (1, 2), (1, 3), (2, 0), (2, 1), (2, 2), (2, 3), (3, 0), (3, 1), (3, 2), (3, 3)] (goodArcs decS2c1) 2 [(0, 1)] = false := by decide

set_option maxRecDepth 10000 in
theorem s2cSub02 : searchArcs [(0, 0), (0, 1), (0, 2), (0, 3), (1, 0), (1, 1), (1, 2), (1, 3), (2, 0), (2, 1), (2, 2), (2, 3), (3, 0), (3, 1), (3, 2), (3, 3)] (goodArcs decS2c1) 2 [(0, 2)] = false := by decide

set_option maxRecDepth 10000 in
theorem s2cSub03 : searchArcs [(0, 0), (0, 1), (0, 2), (0, 3), (1, 0), (1, 1), (1, 2), (1, 3), (2, 0), (2, 1), (2, 2), (2, 3), (3, 0), (3, 1), (3, 2), (3, 3)] (goodArcs decS2c1) 2 [(0, 3)] = false := by decide

set_option maxRecDepth 10000 in
theorem s2cSub10 : searchArcs [(0, 0), (0, 1), (0, 2), (0, 3), (1, 0), (1, 1), (1, 2), (1, 3), (2, 0), (2, 1), (2, 2), (2, 3), (3, 0), (3, 1), (3, 2), (3, 3)] (goodArcs decS2c1) 2 [(1, 0)] = false := by decide

set_option maxRecDepth 10000 in
theorem s2cSub11 : searchArcs [(0, 0), (0, 1), (0, 2), (0, 3), (1, 0), (1, 1), (1, 2), (1, 3), (2, 0), (2, 1), (2, 2), (2, 3), (3, 0), (3, 1), (3, 2), (3, 3)] (goodArcs decS2c1) 2 [(1, 1)] = false := by decide

set_option maxRecDepth 10000 in
theorem s2cSub12 : searchArcs [(0, 0), (0, 1), (0, 2), (0, 3), (1, 0), (1, 1), (1, 2), (1, 3), (2, 0), (2, 1), (2, 2), (2, 3), (3, 0), (3, 1), (3, 2), (3, 3)] (goodArcs decS2c1) 2 [(1, 2)] = false := by decide

set_option maxRecDepth 10000 in
theorem s2cSub13 : searchArcs [(0, 0), (0, 1), (0, 2), (0, 3), (1, 0), (1, 1), (1, 2), (1, 3), (2, 0), (2, 1), (2, 2), (2, 3), (3, 0), (3, 1), (3, 2), (3, 3)] (goodArcs decS2c1) 2 [(1, 3)] = false := by decide

set_option maxRecDepth 10000 in
theorem s2cSub20 : searchArcs [(0, 0), (0, 1), (0, 2), (0, 3), (1, 0), (1, 1), (1, 2), (1, 3), (2, 0), (2, 1), (2, 2), (2, 3), (3, 0), (3, 1), (3, 2), (3, 3)] (goodArcs decS2c1) 2 [(2, 0)] = false := by decide

set_option maxRecDepth 10000 in
theorem s2cSub21 : searchArcs [(0, 0), (0, 1), (0, 2), (0, 3), (1, 0), (1, 1), (1, 2), (1, 3), (2, 0), (2, 1), (2, 2), (2, 3), (3, 0), (3, 1), (3, 2), (3, 3)] (goodArcs decS2c1) 2 [(2, 1)] = false := by decide

set_option maxRecDepth 10000 in
theorem s2cSub22 : searchArcs [(0, 0), (0, 1), (0, 2), (0, 3), (1, 0), (1, 1), (1, 2), (1, 3), (2, 0), (2, 1), (2, 2), (2, 3), (3, 0), (3, 1), (3, 2), (3, 3)] (goodArcs decS2c1) 2 [(2, 2)] = false := by decide

set_option maxRecDepth 10000 in
theorem s2cSub23 : searchArcs [(0, 0), (0, 1), (0, 2), (0, 3), (1, 0), (1, 1), (1, 2), (1, 3), (2, 0), (2, 1), (2, 2), (2, 3), (3, 0), (3, 1), (3, 2), (3, 3)] (goodArcs decS2c1) 2 [(2, 3)] = false := by decide

set_option maxRecDepth 10000 in
theorem s2cSub30 : searchArcs [(0, 0), (0, 1), (0, 2), (0, 3), (1, 0), (1, 1), (1, 2), (1, 3), (2, 0), (2, 1), (2, 2), (2, 3), (3, 0), (3, 1), (3, 2), (3, 3)] (goodArcs decS2c1) 2 [(3, 0)] = false := by decide

set_option maxRecDepth 10000 in
theorem s2cSub31 : searchArcs [(0, 0), (0, 1), (0, 2), (0, 3), (1, 0), (1, 1), (1, 2), (1, 3), (2, 0), (2, 1), (2, 2), (2, 3), (3, 0), (3, 1), (3, 2), (3, 3)] (goodArcs decS2c1) 2 [(3, 1)] = false := by decide

set_option maxRecDepth 10000 in
theorem s2cSub32 : searchArcs [(0, 0), (0, 1), (0, 2), (0, 3), (1, 0), (1, 1), (1, 2), (1, 3), (2, 0), (2, 1), (2, 2), (2, 3), (3, 0), (3, 1), (3, 2), (3, 3)] (goodArcs decS2c1) 2 [(3, 2)] = false := by decide

set_option maxRecDepth 10000 in
theorem s2cSub33 : searchArcs [(0, 0), (0, 1), (0, 2), (0, 3), (1, 0), (1, 1), (1, 2), (1, 3), (2, 0), (2, 1), (2, 2), (2, 3), (3, 0), (3, 1), (3, 2), (3, 3)] (goodArcs decS2c1) 2 [(3, 3)] = false := by decide

set_option maxRecDepth 10000 in
theorem netSearch_decS2_col1 :
    netSearch (addColState decS2 1 [(0, 1), (2, 1)]) = false := by
  show (allPairs 4).any (fun x => searchArcs (allPairs 4) (goodArcs decS2c1) 2 [x]) = false
  rw [allPairs_four]
  simp only [List.any_cons, List.any_nil]
  rw [s2cSub00, s2cSub01, s2cSub02, s2cSub03, s2cSub10, s2cSub11, s2cSub12,
    s2cSub13, s2cSub20, s2cSub21, s2cSub22, s2cSub23, s2cSub30, s2cSub31,
    s2cSub32, s2cSub33]
  rfl

theorem tryAddCol_decS2_col1 :
    tryAddCol decS2 1 [(0, 1), (2, 1)] = (decS2, AddResult.rejected) := by
  unfold tryAddCol
  rw [if_pos (show colValid decS2 1 [(0, 1), (2, 1)] = true by decide),
    if_neg (show ¬netSearch (addColState decS2 1 [(0, 1), (2, 1)]) = true by
      rw [netSearch_decS2_col1]; decide)]

theorem claim_C2_witness :
    (applyCall decS2 (EngCall.addCol 1 [(0, 1), (2, 1)])).2 = AddResult.rejected ∧
    (applyCall decS2 (EngCall.addCol 1 [(0, 1), (2, 1)])).1 = decS2 := by
  have hrej : (applyCall decS2 (EngCall.addCol 1 [(0, 1), (2, 1)])).2
      = AddResult.rejected := by
    show (tryAddCol decS2 1 [(0, 1), (2, 1)]).2 = AddResult.rejected
    rw [tryAddCol_decS2_col1]
  exact ⟨hrej, claim_C2 decS2 (EngCall.addCol 1 [(0, 1), (2, 1)]) hrej⟩

/-- Claim C8, counterexample (spec-modelled; decided by the in-tree unit
tests, which stream rows whose columns were never added into fresh
decompositions and expect acceptance): a try_add_row call whose column id is
not yet present returns accepted, not the invalid-input outcome. -/
theorem claim_C8_counterexample :
    (create 1 2).colIds.contains 0 = false ∧
    (tryAddRow (create 1 2) 0 [(0, 1)]).2 = AddResult.accepted := by decide

/-- Claim C8, amended (spec-modelled): a try_add_row call that mentions a
column id not yet present is not invalid input: in-range fresh column ids are
co-added.  A call with an in-range fresh row id, in-range column ids, values
in `{+1, -1}` and no repeated column id never yields the invalid-input
outcome; its outcome is accepted or rejected according to network-matrix
recognition. -/
theorem claim_C8 (d : NetMatDec) (row : Nat) (cells : List (Nat × ℚ))
    (hrow : row < d.maxRows) (hfresh : d.rowIds.contains row = false)
    (hcells : ∀ cell ∈ cells, cell.1 < d.maxCols ∧ (cell.2 = 1 ∨ cell.2 = -1))
    (hnd : nodupB (cells.map Prod.fst) = true) :
    (tryAddRow d row cells).2 ≠ AddResult.invalid := by
  have hval : rowValid d row cells = true := by
    unfold rowValid
    rw [Bool.and_eq_true, Bool.and_eq_true, Bool.and_eq_true]
    refine ⟨⟨⟨decide_eq_true hrow, by rw [hfresh]; rfl⟩, ?_⟩, hnd⟩
    rw [List.all_eq_true]
    intro cell hcell
    rw [Bool.and_eq_true]
    exact ⟨decide_eq_true (hcells cell hcell).1, decide_eq_true (hcells cell hcell).2⟩
  unfold tryAddRow
  rw [if_pos hval]
  by_cases h2 : netSearch (addRowState d row cells) = true
  · rw [if_pos h2]
    simp
  · rw [if_neg h2]
    simp

theorem claim_C8_witness :
    (create 1 2).colIds.contains 0 = false ∧
    (tryAddRow (create 1 2) 0 [(0, 1)]).2 ≠ AddResult.invalid := by
  refine ⟨by decide, claim_C8 (create 1 2) 0 [(0, 1)] (by decide) (by decide) ?_ (by decide)⟩
  intro cell hcell
  rw [List.mem_singleton.mp hcell]
  exact ⟨by decide, Or.inl rfl⟩

theorem tryAddCol_S2_col0 :
    tryAddCol (create 3 2) 0 [(0, 1), (1, 1), (2, -1)] = (decS2, AddResult.accepted) := by
  unfold tryAddCol
  rw [if_pos (show colValid (create 3 2) 0 [(0, 1), (1, 1), (2, -1)] = true by decide),
    if_pos (show netSearch (addColState (create 3 2) 0 [(0, 1), (1, 1), (2, -1)]) = true from
      (netSearch_iff _).mpr ⟨[(0, 1), (1, 2), (3, 2)], by decide⟩)]
  decide

/-- Claim C3 (spec-modelled): adding the columns of the seed matrix S2,
`[+1 +1; +1 0; -1 +1]`, left to right into a fresh decomposition accepts the
first column and rejects the second (the matrix is not a network matrix). -/
theorem claim_C3 :
    (runOutcomes (create 3 2)
      [EngCall.addCol 0 [(0, 1), (1, 1), (2, -1)],
       EngCall.addCol 1 [(0, 1), (2, 1)]]).2
      = [AddResult.accepted, AddResult.rejected] := by
  have h1 : applyCall (create 3 2) (EngCall.addCol 0 [(0, 1), (1, 1), (2, -1)])
      = (decS2, AddResult.accepted) := tryAddCol_S2_col0
  have h2 : applyCall decS2 (EngCall.addCol 1 [(0, 1), (2, 1)])
      = (decS2, AddResult.rejected) := tryAddCol_decS2_col1
  simp only [runOutcomes, h1, h2]

/-- States of the decomposition while the rows of the seed matrix S7 are
added one by one. -/
def s7d1 : NetMatDec := ⟨5, 5, [0], [0, 1, 4], [(0, 0, 1), (0, 1, 1), (0, 4, 1)]⟩

def s7d2 : NetMatDec :=
  ⟨5, 5, [0, 1], [0, 1, 4, 2],
    [(0, 0, 1), (0, 1, 1), (0, 4, 1), (1, 0, 1), (1, 2, 1)]⟩

def s7d3 : NetMatDec :=
  ⟨5, 5, [0, 1, 2], [0, 1, 4, 2, 3],
    [(0, 0, 1), (0, 1, 1), (0, 4, 1), (1, 0, 1), (1, 2, 1),
     (2, 1, -1), (2, 2, 1), (2, 3, 1), (2, 4, -1)]⟩

def s7d4 : NetMatDec :=
  ⟨5, 5, [0, 1, 2, 3], [0, 1, 4, 2, 3],
    [(0, 0, 1), (0, 1, 1), (0, 4, 1), (1, 0, 1), (1, 2, 1),
     (2, 1, -1), (2, 2, 1), (2, 3, 1), (2, 4, -1), (3, 3, -1), (3, 4, 1)]⟩

def s7d5 : NetMatDec :=
  ⟨5, 5, [0, 1, 2, 3, 4], [0, 1, 4, 2, 3],
    [(0, 0, 1), (0, 1, 1), (0, 4, 1), (1, 0, 1), (1, 2, 1),
     (2, 1, -1), (2, 2, 1), (2, 3, 1), (2, 4, -1), (3, 3, -1), (3, 4, 1),
     (4, 0, 1), (4, 1, 1)]⟩

theorem s7_step1 :
    applyCall (create 5 5) (EngCall.addRow 0 [(0, 1), (1, 1), (4, 1)])
      = (s7d1, AddResult.accepted) := by
  show tryAddRow (create 5 5) 0 [(0, 1), (1, 1), (4, 1)] = (s7d1, AddResult.accepted)
  unfold tryAddRow
  rw [if_pos (show rowValid (create 5 5) 0 [(0, 1), (1, 1), (4, 1)] = true by decide),
    if_pos (show netSearch (addRowState (create 5 5) 0 [(0, 1), (1, 1), (4, 1)]) = true from
      (netSearch_iff _).mpr ⟨[(0, 1)], by decide⟩)]
  decide

theorem s7_step2 :
    applyCall s7d1 (EngCall.addRow 1 [(0, 1), (2, 1)]) = (s7d2, AddResult.accepted) := by
  show tryAddRow s7d1 1 [(0, 1), (2, 1)] = (s7d2, AddResult.accepted)
  unfold tryAddRow
  rw [if_pos (show rowValid s7d1 1 [(0, 1), (2, 1)] = true by decide),
    if_pos (show netSearch (addRowState s7d1 1 [(0, 1), (2, 1)]) = true from
      (netSearch_iff _).mpr ⟨[(0, 1), (2, 0)], by decide⟩)]
  decide

theorem s7_step3 :
    applyCall s7d2 (EngCall.addRow 2 [(1, -1), (2, 1), (3, 1), (4, -1)])
      = (s7d3, AddResult.accepted) := by
  show tryAddRow s7d2 2 [(1, -1), (2, 1), (3, 1), (4, -1)] = (s7d3, AddResult.accepted)
  unfold tryAddRow
  rw [if_pos (show rowValid s7d2 2 [(1, -1), (2, 1), (3, 1), (4, -1)] = true by decide),
    if_pos (show netSearch (addRowState s7d2 2 [(1, -1), (2, 1), (3, 1), (4, -1)]) = true from
      (netSearch_iff _).mpr ⟨[(0, 1), (2, 0), (0, 3)], by decide⟩)]
  decide

theorem s7_step4 :
    applyCall s7d3 (EngCall.addRow 3 [(3, -1), (4, 1)]) = (s7d4, AddResult.accepted) := by
  show tryAddRow s7d3 3 [(3, -1), (4, 1)] = (s7d4, AddResult.accepted)
  unfold tryAddRow
  rw [if_pos (show rowValid s7d3 3 [(3, -1), (4, 1)] = true by decide),
    if_pos (show netSearch (addRowState s7d3 3 [(3, -1), (4, 1)]) = true from
      (netSearch_iff _).mpr ⟨[(0, 1), (2, 0), (0, 3), (4, 3)], by decide⟩)]
  decide

theorem s7_step5 :
    applyCall s7d4 (EngCall.addRow 4 [(0, 1), (1, 1)]) = (s7d5, AddResult.accepted) := by
  show tryAddRow s7d4 4 [(0, 1), (1, 1)] = (s7d5, AddResult.accepted)
  unfold tryAddRow
  rw [if_pos (show rowValid s7d4 4 [(0, 1), (1, 1)] = true by decide),
    if_pos (show netSearch (addRowState s7d4 4 [(0, 1), (1, 1)]) = true from
      (netSearch_iff _).mpr ⟨[(0, 1), (3, 0), (0, 4), (5, 4), (1, 2)], by decide⟩)]
  decide

/-- Claim C4 (spec-modelled): adding the five rows of the seed matrix S7
left to right into a fresh decomposition accepts every row: every prefix of
the matrix is a network matrix, witnessed by explicit spanning trees. -/
theorem claim_C4 :
    (runOutcomes (create 5 5)
      [EngCall.addRow 0 [(0, 1), (1, 1), (4, 1)],
       EngCall.addRow 1 [(0, 1), (2, 1)],
       EngCall.addRow 2 [(1, -1), (2, 1), (3, 1), (4, -1)],
       EngCall.addRow 3 [(3, -1), (4, 1)],
       EngCall.addRow 4 [(0, 1), (1, 1)]]).2
      = [AddResult.accepted, AddResult.accepted, AddResult.accepted,
         AddResult.accepted, AddResult.accepted] := by
  simp only [runOutcomes, s7_step1, s7_step2, s7_step3, s7_step4, s7_step5]

/-! ### The implied-integrality presolver (presol_implint.c)

The problem matrix is modelled with exact rational coefficients; a missing
left-hand side stands for minus infinity and a missing right-hand side for
plus infinity.  `contvar` flags which columns are continuous variables. -/

/-- A row of the problem matrix: sides and nonzero cells (column, value). -/
structure ImpRow where
  lhs : Option ℚ
  rhs : Option ℚ
  cells : List (Nat × ℚ)

/-- The problem matrix: per-column continuity flags and the rows. -/
structure ImpMatrix where
  contvar : List Bool
  rows : List ImpRow

/-- Number of columns of the problem matrix. -/
def nmatrixcols (m : ImpMatrix) : Nat := m.contvar.length

/-- Number of rows of the problem matrix. -/
def nmatrixrows (m : ImpMatrix) : Nat := m.rows.length

/-- Is column `c` a continuous variable (`SCIPvarGetType == CONTINUOUS`)? -/
def isContCol (m : ImpMatrix) (c : Nat) : Bool := m.contvar.getD c false

/-- Row `i` of the matrix. -/
def getRow (m : ImpMatrix) (i : Nat) : ImpRow := m.rows.getD i ⟨none, none, []⟩

/-- Is the rational an integer (`SCIPisIntegral`)? -/
def isIntegralQ (q : ℚ) : Bool := q.den == 1

/-- The per-row statistics gathered by `computeMatrixStatistics`
(presol_implint.c, lines 349-412). -/
structure RowStats where
  rowintegral : Bool
  rowequality : Bool
  rowbadnumerics : Bool
  rownnonz : Nat
  rowncontinuous : Nat
  rowncontinuouspmone : Nat
deriving DecidableEq

/-- Embedding of the statistics loop of `computeMatrixStatistics`: a side is
integral when it is infinite or an integer; `rowintegral` additionally
requires every non-continuous coefficient to be integral; `rowbadnumerics` is
set by any coefficient of absolute value above `1e7`. -/
def rowStats (m : ImpMatrix) (row : ImpRow) : RowStats :=
  { rowintegral :=
      (match row.lhs with | none => true | some a => isIntegralQ a) &&
      (match row.rhs with | none => true | some b => isIntegralQ b) &&
      row.cells.all (fun cell => isContCol m cell.1 || isIntegralQ cell.2)
    rowequality :=
      match row.lhs, row.rhs with
      | some a, some b => a == b
      | _, _ => false
    rowbadnumerics := row.cells.any (fun cell => decide (|cell.2| > 10000000))
    rownnonz := row.cells.length
    rowncontinuous := row.cells.countP (fun cell => isContCol m cell.1)
    rowncontinuouspmone :=
      row.cells.countP (fun cell => isContCol m cell.1 && decide (|cell.2| = 1)) }

/-- The per-row admissibility check of `findImpliedIntegers` (lines 467-485):
every continuous entry is `±1`, the row is integral, and the numerics are
fine. -/
def rowOkayB (m : ImpMatrix) (row : Nat) : Bool :=
  let st := rowStats m (getRow m row)
  (st.rowncontinuous == st.rowncontinuouspmone) && st.rowintegral && !st.rowbadnumerics

/-- The rows carrying a nonzero in column `col`, in increasing row order,
with the values (`SCIPmatrixGetColIdxPtr`/`SCIPmatrixGetColValPtr`). -/
def colCells (m : ImpMatrix) (col : Nat) : List (Nat × ℚ) :=
  (List.range (nmatrixrows m)).filterMap (fun i =>
    match (getRow m i).cells.find? (fun cell => cell.1 == col) with
    | some cell => some (i, cell.2)
    | none => none)

/-- The row indices with a nonzero in column `col`. -/
def colRows (m : ImpMatrix) (col : Nat) : List Nat :=
  (colCells m col).map Prod.fst

/-- The row's cells restricted to continuous columns: the contents of the
temporary arrays `tempIdxArray`/`tempValArray` (lines 506-517). -/
def contCells (m : ImpMatrix) (row : Nat) : List (Nat × ℚ) :=
  (getRow m row).cells.filter (fun cell => isContCol m cell.1)

/-- Union-find phase of `computeContinuousComponents` (lines 215-242):
columns occupy indices `0..ncols-1`, row `r` occupies index `ncols + r`; for
every continuous column, its row supports are merged into its set. -/
def ccPhase1 (m : ImpMatrix) : List Int :=
  (List.range (nmatrixcols m)).foldl (fun ds col =>
    if isContCol m col then
      let p := disjointSetFind ds col
      let st := (colRows m col).foldl (fun (q : List Int × Nat) colrow =>
        let pr := disjointSetFind q.1 (colrow + nmatrixcols m)
        if q.2 ≠ pr.2 then disjointSetMerge pr.1 q.2 pr.2 else (pr.1, q.2)) (p.1, p.2)
      st.1
    else ds)
    (List.replicate (nmatrixcols m + nmatrixrows m) (-1))

/-- Intermediate state of the numbering phase of
`computeContinuousComponents`. -/
structure CCState where
  ds : List Int
  repcomp : List Int
  colcomponent : List Int
  rowcomponent : List Int
  ncomponents : Nat

/-- Second phase of `computeContinuousComponents` (lines 251-270): number the
components in the order the continuous columns discover their roots. -/
def ccPhase2Cols (m : ImpMatrix) (st0 : CCState) : CCState :=
  (List.range (nmatrixcols m)).foldl (fun st col =>
    if isContCol m col then
      let p := disjointSetFind st.ds col
      let c := st.repcomp.getD p.2 (-1)
      if c < 0 then
        { ds := p.1
          repcomp := st.repcomp.set p.2 (Int.ofNat st.ncomponents)
          colcomponent := st.colcomponent.set col (Int.ofNat st.ncomponents)
          rowcomponent := st.rowcomponent
          ncomponents := st.ncomponents + 1 }
      else
        { st with ds := p.1, colcomponent := st.colcomponent.set col c }
    else st) st0

/-- Third phase of `computeContinuousComponents` (lines 271-282): attach each
row to the component of its root, skipping rows whose root carries no
continuous column. -/
def ccPhase2Rows (m : ImpMatrix) (st0 : CCState) : CCState :=
  (List.range (nmatrixrows m)).foldl (fun st row =>
    let p := disjointSetFind st.ds (row + nmatrixcols m)
    let c := st.repcomp.getD p.2 (-1)
    if c < 0 then { st with ds := p.1 }
    else { st with ds := p.1, rowcomponent := st.rowcomponent.set row c }) st0

/-- The component data of `computeContinuousComponents`: per-column and
per-row component indices (`-1` when unassigned) and the component count. -/
structure MatrixComponents where
  colcomponent : List Int
  rowcomponent : List Int
  ncomponents : Nat
deriving DecidableEq

/-- Embedding of `computeContinuousComponents` (lines 208-337). -/
def computeContinuousComponents (m : ImpMatrix) : MatrixComponents :=
  let st := ccPhase2Rows m (ccPhase2Cols m
    { ds := ccPhase1 m
      repcomp := List.replicate (nmatrixcols m + nmatrixrows m) (-1)
      colcomponent := List.replicate (nmatrixcols m) (-1)
      rowcomponent := List.replicate (nmatrixrows m) (-1)
      ncomponents := 0 })
  ⟨st.colcomponent, st.rowcomponent, st.ncomponents⟩

/-- The rows of component `k`, in increasing row order — the slice
`componentrows[componentrowstart[k] ..]` of the CSR flattening (lines
283-332), which lists exactly the rows with `rowcomponent = k` in increasing
order. -/
def componentRows (comp : MatrixComponents) (k : Nat) : List Nat :=
  (List.range comp.rowcomponent.length).filter
    (fun i => comp.rowcomponent.getD i (-1) == Int.ofNat k)

/-- The columns of component `k`, in increasing column order (CSR slice
`componentcols[componentcolstart[k] ..]`). -/
def componentCols (comp : MatrixComponents) (k : Nat) : List Nat :=
  (List.range comp.colcomponent.length).filter
    (fun i => comp.colcomponent.getD i (-1) == Int.ofNat k)

/-- The interface of the network matrix decomposition engine as used by the
presolver: `SCIPnetmatdecTryAddRow`, `SCIPnetmatdecTryAddCol` and
`SCIPnetmatdecRemoveComponent` over an abstract decomposition state.  The
engine implementation is not part of this tree, so the driver is verified for
every engine. -/
structure ImpEngine (σ : Type) where
  tryRow : σ → Nat → List (Nat × ℚ) → σ × Bool
  tryCol : σ → Nat → List (Nat × ℚ) → σ × Bool
  removeComp : σ → List Nat → List Nat → σ

/-- One engine call made by the driver: which mutator, the id passed, and the
(index, value) cells passed. -/
structure EngTraceCall where
  isRow : Bool
  id : Nat
  cells : List (Nat × ℚ)
deriving DecidableEq

/-- What the driver did with one component: its rows and columns, the
admissibility verdict, the branch condition and call trace of the run on the
straight decomposition, and the same for the run on the transposed
decomposition. -/
structure ComponentReport where
  rowsk : List Nat
  colsk : List Nat
  okay : Bool
  rowwise : Bool
  primalTrace : List EngTraceCall
  primalOk : Bool
  transRowwise : Bool
  transTrace : List EngTraceCall
  transOk : Bool
deriving DecidableEq

/-- State threaded through the component loop of `findImpliedIntegers`: the
two decompositions, the per-component reports, and the columns marked
implied-integer so far. -/
structure ImpRun (σ : Type) where
  dec : σ
  transdec : σ
  reports : List ComponentReport
  marked : List Nat
deriving DecidableEq

/-- Stream ids into the engine while the verdict stays `true` (the loops
`for (i ...) && componentnetwork` of lines 500-532): returns the engine
state, the final verdict, and the calls that were made. -/
def streamStep {σ : Type} (f : σ → Nat → σ × Bool) (tr : Nat → EngTraceCall)
    (acc : σ × Bool × List EngTraceCall) (i : Nat) : σ × Bool × List EngTraceCall :=
  if acc.2.1 then
    let p := f acc.1 i
    (p.1, p.2, acc.2.2 ++ [tr i])
  else acc

def streamFold {σ : Type} (f : σ → Nat → σ × Bool) (tr : Nat → EngTraceCall)
    (ids : List Nat) (s : σ) : σ × Bool × List EngTraceCall :=
  ids.foldl (streamStep f tr) (s, true, [])

/-- The branch condition `nrows * ratio < ncols` of line 499, evaluated
exactly: for a rational `ratio` with positive denominator this integer
comparison is equivalent to the comparison over ℚ (theorem
`ratioMulLt_eq`); it is stated over numerator and denominator so that
concrete instances reduce inside the kernel. -/
def ratioMulLt (a : Nat) (ratio : ℚ) (b : Nat) : Bool :=
  decide ((a : Int) * ratio.num < (b : Int) * (ratio.den : Int))

/-- The branch condition `nrows < ncols * ratio` of line 542, evaluated
exactly (theorem `ratioLtMul_eq`). -/
def ratioLtMul (a : Nat) (b : Nat) (ratio : ℚ) : Bool :=
  decide ((a : Int) * (ratio.den : Int) < (b : Int) * ratio.num)

theorem ratioMulLt_eq (a : Nat) (ratio : ℚ) (b : Nat) :
    ratioMulLt a ratio b = decide ((a : ℚ) * ratio < (b : ℚ)) := by
  unfold ratioMulLt
  rw [decide_eq_decide]
  have hden : (0 : ℚ) < (ratio.den : ℚ) := by exact_mod_cast ratio.den_pos
  constructor
  · intro h
    have h2 : ((a : ℚ)) * (ratio.num : ℚ) < ((b : ℚ)) * (ratio.den : ℚ) := by
      exact_mod_cast h
    have h3 : (a : ℚ) * ratio = (a : ℚ) * (ratio.num : ℚ) / (ratio.den : ℚ) := by
      rw [mul_div_assoc, Rat.num_div_den]
    rw [h3]
    exact (div_lt_iff hden).mpr h2
  · intro h
    have h3 : (a : ℚ) * (ratio.num : ℚ) / (ratio.den : ℚ) < (b : ℚ) := by
      rw [mul_div_assoc, Rat.num_div_den]
      exact h
    have h2 := (div_lt_iff hden).mp h3
    exact_mod_cast h2

theorem ratioLtMul_eq (a : Nat) (b : Nat) (ratio : ℚ) :
    ratioLtMul a b ratio = decide ((a : ℚ) < (b : ℚ) * ratio) := by
  unfold ratioLtMul
  rw [decide_eq_decide]
  have hden : (0 : ℚ) < (ratio.den : ℚ) := by exact_mod_cast ratio.den_pos
  constructor
  · intro h
    have h2 : ((a : ℚ)) * (ratio.den : ℚ) < ((b : ℚ)) * (ratio.num : ℚ) := by
      exact_mod_cast h
    have h3 : (b : ℚ) * ratio = (b : ℚ) * (ratio.num : ℚ) / (ratio.den : ℚ) := by
      rw [mul_div_assoc, Rat.num_div_den]
    rw [h3]
    exact (lt_div_iff hden).mpr h2
  · intro h
    have h3 : (a : ℚ) < (b : ℚ) * (ratio.num : ℚ) / (ratio.den : ℚ) := by
      rw [mul_div_assoc, Rat.num_div_den]
      exact h
    have h2 := (lt_div_iff hden).mp h3
    exact_mod_cast h2

def primalRun {σ : Type} (eng : ImpEngine σ) (ratio : ℚ) (m : ImpMatrix)
    (comp : MatrixComponents) (k : Nat) (dec : σ) : σ × Bool × List EngTraceCall :=
  if ratioMulLt (componentRows comp k).length ratio
      (componentCols comp k).length = true then
    streamFold (fun s row => eng.tryRow s row (contCells m row))
      (fun row => ⟨true, row, contCells m row⟩) (componentRows comp k) dec
  else
    streamFold (fun s col => eng.tryCol s col (colCells m col))
      (fun col => ⟨false, col, colCells m col⟩) (componentCols comp k) dec

def transRun {σ : Type} (eng : ImpEngine σ) (ratio : ℚ) (m : ImpMatrix)
    (comp : MatrixComponents) (k : Nat) (transdec : σ) : σ × Bool × List EngTraceCall :=
  if ratioLtMul (componentRows comp k).length
      (componentCols comp k).length ratio = true then
    streamFold (fun s row => eng.tryCol s row (contCells m row))
      (fun row => ⟨false, row, contCells m row⟩) (componentRows comp k) transdec
  else
    streamFold (fun s col => eng.tryRow s col (colCells m col))
      (fun col => ⟨true, col, colCells m col⟩) (componentCols comp k) transdec

/-- The body of the component loop of `findImpliedIntegers` (lines 462-601):
check the rows, stream the component into the straight decomposition
(row-wise iff `nrows · ρ < ncols`), stream it into the transposed
decomposition (with the reversed condition), remove failed components, and
mark the component's columns implied-integer unless both runs failed. -/
def processComponent {σ : Type} (eng : ImpEngine σ) (ratio : ℚ) (m : ImpMatrix)
    (comp : MatrixComponents) (st : ImpRun σ) (k : Nat) : ImpRun σ :=
  let rowsk := componentRows comp k
  let colsk := componentCols comp k
  let okay := rowsk.all (rowOkayB m)
  let rowwise := ratioMulLt rowsk.length ratio colsk.length
  let transRowwise := ratioLtMul rowsk.length colsk.length ratio
  if okay then
    let primal := primalRun eng ratio m comp k st.dec
    let dec1 := if primal.2.1 then primal.1 else eng.removeComp primal.1 rowsk colsk
    let trans := transRun eng ratio m comp k st.transdec
    let trans1 := if trans.2.1 then trans.1 else eng.removeComp trans.1 colsk rowsk
    { dec := dec1
      transdec := trans1
      reports := st.reports ++
        [⟨rowsk, colsk, okay, rowwise, primal.2.2, primal.2.1,
          transRowwise, trans.2.2, trans.2.1⟩]
      marked :=
        if !primal.2.1 && !trans.2.1 then st.marked else st.marked ++ colsk }
  else
    { st with reports := st.reports ++
        [⟨rowsk, colsk, okay, rowwise, [], true, transRowwise, [], true⟩] }

/-- Embedding of `findImpliedIntegers` (lines 431-613), with the engine
abstract. -/
def findImpliedIntegers {σ : Type} (eng : ImpEngine σ) (initDec initTrans : σ)
    (ratio : ℚ) (m : ImpMatrix) : ImpRun σ :=
  let comp := computeContinuousComponents m
  (List.range comp.ncomponents).foldl (processComponent eng ratio m comp)
    ⟨initDec, initTrans, [], []⟩

/-- Embedding of the gating of `presolExecImplint` that concerns the
`convertintegers` knob (lines 736-740): when the knob is off and there is no
continuous variable the presolver exits before doing anything; in every other
case it runs `findImpliedIntegers`.  This is the knob's only use. -/
def presolExecImplint {σ : Type} (eng : ImpEngine σ) (initDec initTrans : σ)
    (convertintegers : Bool) (ratio : ℚ) (m : ImpMatrix) : Option (ImpRun σ) :=
  if !convertintegers && (m.contvar.countP (fun b => b)) == 0 then none
  else some (findImpliedIntegers eng initDec initTrans ratio m)

/-- `DEFAULT_CONVERTINTEGERS` (presol_implint.c, line 65). -/
def defaultConvertintegers : Bool := false

/-- `DEFAULT_COLUMNROWRATIO` (presol_implint.c, line 66). -/
def defaultColumnrowratioQ : ℚ := 50

/-- Lower bound of the `presolving/implint/columnrowratio` parameter
(line 845). -/
def columnrowratioMinQ : ℚ := 0

/-- Upper bound of the `presolving/implint/columnrowratio` parameter
(line 845): `1e12`. -/
def columnrowratioMaxQ : ℚ := 1000000000000

/-- The columns a report marks implied-integer: all of the component's
columns when the rows were admissible and at least one of the two runs
accepted every streamed vector, none otherwise. -/
def contribMark (r : ComponentReport) : List Nat :=
  if r.okay && (r.primalOk || r.transOk) then r.colsk else []

theorem streamStep_fold_trace {σ : Type} (f : σ → Nat → σ × Bool)
    (tr : Nat → EngTraceCall) (ids : List Nat) :
    ∀ acc, (∀ call ∈ acc.2.2, ∃ i, call = tr i) →
    ∀ call ∈ (ids.foldl (streamStep f tr) acc).2.2, ∃ i, call = tr i := by
  induction ids with
  | nil =>
    intro acc h call hc
    exact h call hc
  | cons i ids ih =>
    intro acc h
    refine ih (streamStep f tr acc i) ?_
    intro call hc
    unfold streamStep at hc
    split at hc
    · rcases List.mem_append.mp hc with h1 | h1
      · exact h call h1
      · exact ⟨i, List.mem_singleton.mp h1⟩
    · exact h call hc

theorem streamFold_trace {σ : Type} (f : σ → Nat → σ × Bool)
    (tr : Nat → EngTraceCall) (ids : List Nat) (s : σ) :
    ∀ call ∈ (streamFold f tr ids s).2.2, ∃ i, call = tr i :=
  streamStep_fold_trace f tr ids (s, true, [])
    (fun call hc => absurd hc (List.not_mem_nil call))

/-- The facts about one component's report that depend only on the component
index: which rows and columns it covers, how the admissibility verdict and
the branch condition were computed, and the shape of the recorded calls. -/
def ReportGood (m : ImpMatrix) (comp : MatrixComponents) (ratio : ℚ)
    (k : Nat) (r : ComponentReport) : Prop :=
  r.rowsk = componentRows comp k ∧
  r.colsk = componentCols comp k ∧
  r.okay = (componentRows comp k).all (rowOkayB m) ∧
  r.rowwise = ratioMulLt (componentRows comp k).length ratio
    (componentCols comp k).length ∧
  (r.okay = false → r.primalTrace = [] ∧ r.transTrace = []) ∧
  (r.rowwise = true → ∀ call ∈ r.primalTrace, call.isRow = true) ∧
  (r.rowwise = false → ∀ call ∈ r.primalTrace, call.isRow = false)

theorem primalRun_trace_rowwise {σ : Type} (eng : ImpEngine σ) (ratio : ℚ)
    (m : ImpMatrix) (comp : MatrixComponents) (k : Nat) (dec : σ)
    (h : ratioMulLt (componentRows comp k).length ratio
      (componentCols comp k).length = true) :
    ∀ call ∈ (primalRun eng ratio m comp k dec).2.2, call.isRow = true := by
  intro call hcall
  unfold primalRun at hcall
  rw [if_pos h] at hcall
  obtain ⟨i, rfl⟩ := streamFold_trace _ _ _ _ call hcall
  rfl

theorem primalRun_trace_colwise {σ : Type} (eng : ImpEngine σ) (ratio : ℚ)
    (m : ImpMatrix) (comp : MatrixComponents) (k : Nat) (dec : σ)
    (h : ratioMulLt (componentRows comp k).length ratio
      (componentCols comp k).length = false) :
    ∀ call ∈ (primalRun eng ratio m comp k dec).2.2, call.isRow = false := by
  intro call hcall
  unfold primalRun at hcall
  rw [if_neg (by rw [h]; simp)] at hcall
  obtain ⟨i, rfl⟩ := streamFold_trace _ _ _ _ call hcall
  rfl

theorem processComponent_spec {σ : Type} (eng : ImpEngine σ) (ratio : ℚ)
    (m : ImpMatrix) (comp : MatrixComponents) (st : ImpRun σ) (k : Nat) :
    ∃ r : ComponentReport,
      (processComponent eng ratio m comp st k).reports = st.reports ++ [r] ∧
      (processComponent eng ratio m comp st k).marked = st.marked ++ contribMark r ∧
      ReportGood m comp ratio k r := by
  unfold processComponent
  by_cases hok : (componentRows comp k).all (rowOkayB m) = true
  · rw [if_pos hok]
    refine ⟨_, rfl, ?_, rfl, rfl, rfl, rfl, ?_, ?_, ?_⟩
    · -- the marking matches `contribMark`
      show (if !(primalRun eng ratio m comp k st.dec).2.1 &&
          !(transRun eng ratio m comp k st.transdec).2.1 then st.marked
        else st.marked ++ componentCols comp k) = _
      unfold contribMark
      dsimp only
      rw [hok]
      by_cases hp : (primalRun eng ratio m comp k st.dec).2.1 = true
      all_goals by_cases ht : (transRun eng ratio m comp k st.transdec).2.1 = true
      all_goals simp [hp, ht]
    · intro hfalse
      dsimp only at hfalse
      rw [hok] at hfalse
      cases hfalse
    · intro hrw call hcall
      dsimp only at hrw hcall
      exact primalRun_trace_rowwise eng ratio m comp k st.dec hrw call hcall
    · intro hrw call hcall
      dsimp only at hrw hcall
      exact primalRun_trace_colwise eng ratio m comp k st.dec hrw call hcall
  · rw [if_neg hok]
    refine ⟨_, rfl, ?_, rfl, rfl, rfl, rfl, ?_, ?_, ?_⟩
    · unfold contribMark
      dsimp only
      rw [Bool.eq_false_iff.mpr hok]
      simp
    · intro _
      exact ⟨rfl, rfl⟩
    · intro _ call hcall
      cases hcall
    · intro _ call hcall
      cases hcall

theorem list_get_eq_of_eq {α : Type} {l l' : List α} (h : l = l') {j : Nat}
    (hj : j < l.length) (hj' : j < l'.length) : l.get ⟨j, hj⟩ = l'.get ⟨j, hj'⟩ := by
  subst h
  rfl

theorem processFold_spec {σ : Type} (eng : ImpEngine σ) (ratio : ℚ)
    (m : ImpMatrix) (comp : MatrixComponents) :
    ∀ (ks : List Nat) (st : ImpRun σ),
    ∃ reps : List ComponentReport,
      (ks.foldl (processComponent eng ratio m comp) st).reports = st.reports ++ reps ∧
      (ks.foldl (processComponent eng ratio m comp) st).marked
        = st.marked ++ reps.flatMap contribMark ∧
      reps.length = ks.length ∧
      ∀ j (hj : j < reps.length) (hjk : j < ks.length),
        ReportGood m comp ratio (ks.get ⟨j, hjk⟩) (reps.get ⟨j, hj⟩) := by
  intro ks
  induction ks with
  | nil =>
    intro st
    exact ⟨[], by simp, by simp, rfl, fun j hj _ => absurd hj (by simp)⟩
  | cons k ks ih =>
    intro st
    obtain ⟨r, hrep, hmark, hgood⟩ := processComponent_spec eng ratio m comp st k
    obtain ⟨reps, hrep2, hmark2, hlen2, hgood2⟩ :=
      ih (processComponent eng ratio m comp st k)
    refine ⟨r :: reps, ?_, ?_, by simp [hlen2], ?_⟩
    · show (List.foldl _ (processComponent eng ratio m comp st k) ks).reports = _
      rw [hrep2, hrep, List.append_assoc, List.singleton_append]
    · show (List.foldl _ (processComponent eng ratio m comp st k) ks).marked = _
      rw [hmark2, hmark, List.append_assoc, List.flatMap_cons]
    · intro j hj hjk
      cases j with
      | zero => simpa using hgood
      | succ j' =>
        have h1 : j' < reps.length := by simpa using hj
        have h2 : j' < ks.length := by simpa using hjk
        simpa using hgood2 j' h1 h2

theorem componentCols_disjoint {comp : MatrixComponents} {c k k' : Nat}
    (h : c ∈ componentCols comp k) (h' : c ∈ componentCols comp k') : k = k' := by
  unfold componentCols at h h'
  rw [List.mem_filter] at h h'
  have h1 := beq_iff_eq.mp h.2
  have h2 := beq_iff_eq.mp h'.2
  rw [h1] at h2
  exact Int.ofNat.inj h2

theorem findImplied_spec {σ : Type} (eng : ImpEngine σ) (d0 t0 : σ) (ratio : ℚ)
    (m : ImpMatrix) :
    ∃ reps : List ComponentReport,
      (findImpliedIntegers eng d0 t0 ratio m).reports = reps ∧
      (findImpliedIntegers eng d0 t0 ratio m).marked = reps.flatMap contribMark ∧
      reps.length = (computeContinuousComponents m).ncomponents ∧
      ∀ j (hj : j < reps.length),
        ReportGood m (computeContinuousComponents m) ratio j (reps.get ⟨j, hj⟩) := by
  obtain ⟨reps, h1, h2, h3, h4⟩ :=
    processFold_spec eng ratio m (computeContinuousComponents m)
      (List.range (computeContinuousComponents m).ncomponents)
      ⟨d0, t0, [], []⟩
  refine ⟨reps, by simpa using h1, by simpa using h2, by simpa using h3, ?_⟩
  intro j hj
  have hjk : j < (List.range (computeContinuousComponents m).ncomponents).length := by
    rw [← h3]
    exact hj
  have hrg := h4 j hj hjk
  have : (List.range (computeContinuousComponents m).ncomponents).get ⟨j, hjk⟩ = j := by
    simp
  rwa [this] at hrg

/-- Claim C10: for every component the presolver runs the recognition twice —
once streaming the component into the straight decomposition and once into
the transposed one — and marks the component's columns implied-integer
exactly when the rows were admissible and at least one of the two runs
accepted every streamed vector.  In particular a component whose straight run
fails but whose transposed run accepts is still marked. -/
theorem claim_C10 {σ : Type} (eng : ImpEngine σ) (d0 t0 : σ) (ratio : ℚ)
    (m : ImpMatrix) (j : Nat)
    (hj : j < (findImpliedIntegers eng d0 t0 ratio m).reports.length) (c : Nat)
    (hc : c ∈ ((findImpliedIntegers eng d0 t0 ratio m).reports.get ⟨j, hj⟩).colsk) :
    c ∈ (findImpliedIntegers eng d0 t0 ratio m).marked ↔
      (((findImpliedIntegers eng d0 t0 ratio m).reports.get ⟨j, hj⟩).okay = true ∧
       (((findImpliedIntegers eng d0 t0 ratio m).reports.get ⟨j, hj⟩).primalOk = true ∨
        ((findImpliedIntegers eng d0 t0 ratio m).reports.get ⟨j, hj⟩).transOk = true)) := by
  obtain ⟨reps, hrep, hmark, hlen, hgood⟩ := findImplied_spec eng d0 t0 ratio m
  have hjr : j < reps.length := hrep ▸ hj
  have hget : (findImpliedIntegers eng d0 t0 ratio m).reports.get ⟨j, hj⟩
      = reps.get ⟨j, hjr⟩ := list_get_eq_of_eq hrep hj hjr
  rw [hget] at hc ⊢
  rw [hmark, List.mem_flatMap]
  constructor
  · rintro ⟨r', hr'mem, hc'⟩
    obtain ⟨⟨j', hj'⟩, rfl⟩ := List.mem_iff_get.mp hr'mem
    have hcond : ((reps.get ⟨j', hj'⟩).okay &&
        ((reps.get ⟨j', hj'⟩).primalOk || (reps.get ⟨j', hj'⟩).transOk)) = true := by
      by_contra hcond
      unfold contribMark at hc'
      rw [if_neg hcond] at hc'
      exact absurd hc' (List.not_mem_nil c)
    have hcsub : c ∈ (reps.get ⟨j', hj'⟩).colsk := by
      unfold contribMark at hc'
      rwa [if_pos hcond] at hc'
    have hg := hgood j hjr
    have hg' := hgood j' hj'
    rw [hg.2.1] at hc
    rw [hg'.2.1] at hcsub
    have hjj : j' = j := componentCols_disjoint hcsub hc
    subst hjj
    rw [Bool.and_eq_true, Bool.or_eq_true] at hcond
    exact hcond
  · rintro ⟨hok, hpor⟩
    refine ⟨reps.get ⟨j, hjr⟩, List.get_mem reps j hjr, ?_⟩
    unfold contribMark
    have hcondpos : ((reps.get ⟨j, hjr⟩).okay &&
        ((reps.get ⟨j, hjr⟩).primalOk || (reps.get ⟨j, hjr⟩).transOk)) = true := by
      rw [hok]
      rcases hpor with h | h
      · rw [h]
        rfl
      · rw [h, Bool.or_true]
        rfl
    rw [if_pos hcondpos]
    exact hc

/-- Claim C5 (amended scope: the traversal choice and the knob's metadata):
for every component, the presolver streams the component into the straight
decomposition row-wise (only SCIPnetmatdecTryAddRow calls) exactly when
`nrows · ρ < ncols`, and column-wise (only SCIPnetmatdecTryAddCol calls)
otherwise; the default value of ρ is 50.0 and its admissible range is
`[0, 1e12]`. -/
theorem claim_C5 {σ : Type} (eng : ImpEngine σ) (d0 t0 : σ) (ratio : ℚ)
    (m : ImpMatrix) (j : Nat)
    (hj : j < (findImpliedIntegers eng d0 t0 ratio m).reports.length) :
    (((findImpliedIntegers eng d0 t0 ratio m).reports.get ⟨j, hj⟩).rowwise = true ↔
      ((((findImpliedIntegers eng d0 t0 ratio m).reports.get ⟨j, hj⟩).rowsk.length : ℚ)
        * ratio
        < (((findImpliedIntegers eng d0 t0 ratio m).reports.get ⟨j, hj⟩).colsk.length
          : ℚ))) ∧
    (((findImpliedIntegers eng d0 t0 ratio m).reports.get ⟨j, hj⟩).rowwise = true →
      ∀ call ∈ ((findImpliedIntegers eng d0 t0 ratio m).reports.get ⟨j, hj⟩).primalTrace,
        call.isRow = true) ∧
    (((findImpliedIntegers eng d0 t0 ratio m).reports.get ⟨j, hj⟩).rowwise = false →
      ∀ call ∈ ((findImpliedIntegers eng d0 t0 ratio m).reports.get ⟨j, hj⟩).primalTrace,
        call.isRow = false) ∧
    defaultColumnrowratioQ = 50 ∧ columnrowratioMinQ = 0 ∧
    columnrowratioMaxQ = 10 ^ 12 := by
  obtain ⟨reps, hrep, hmark, hlen, hgood⟩ := findImplied_spec eng d0 t0 ratio m
  have hjr : j < reps.length := hrep ▸ hj
  have hget : (findImpliedIntegers eng d0 t0 ratio m).reports.get ⟨j, hj⟩
      = reps.get ⟨j, hjr⟩ := list_get_eq_of_eq hrep hj hjr
  rw [hget]
  have hg := hgood j hjr
  refine ⟨?_, hg.2.2.2.2.2.1, hg.2.2.2.2.2.2, rfl, rfl, by norm_num [columnrowratioMaxQ]⟩
  rw [hg.2.2.2.1, hg.1, hg.2.1, ratioMulLt_eq, decide_eq_true_eq]

/-- The premise of claim C6, amended: some row of the component has a
non-integral coefficient on a non-continuous column, or a finite side that is
not integral. -/
def BadRowClaim (m : ImpMatrix) (i : Nat) : Prop :=
  (∃ cell ∈ (getRow m i).cells,
    isContCol m cell.1 = false ∧ isIntegralQ cell.2 = false) ∨
  (∃ q, (getRow m i).lhs = some q ∧ isIntegralQ q = false) ∨
  (∃ q, (getRow m i).rhs = some q ∧ isIntegralQ q = false)

theorem badRow_not_okay {m : ImpMatrix} {i : Nat} (h : BadRowClaim m i) :
    rowOkayB m i = false := by
  unfold rowOkayB rowStats
  dsimp only
  have hint : ((match (getRow m i).lhs with | none => true | some a => isIntegralQ a) &&
      (match (getRow m i).rhs with | none => true | some b => isIntegralQ b) &&
      (getRow m i).cells.all (fun cell => isContCol m cell.1 || isIntegralQ cell.2))
      = false := by
    rcases h with ⟨cell, hmem, hcont, hintq⟩ | ⟨q, hq, hintq⟩ | ⟨q, hq, hintq⟩
    · have hall : (getRow m i).cells.all
          (fun cell => isContCol m cell.1 || isIntegralQ cell.2) = false := by
        rw [Bool.eq_false_iff]
        intro hall
        have hcell := List.all_eq_true.mp hall cell hmem
        rw [hcont, hintq] at hcell
        simp at hcell
      rw [hall, Bool.and_false]
    · rw [hq]
      show (isIntegralQ q && _ && _) = false
      rw [hintq, Bool.false_and, Bool.false_and]
    · rw [hq]
      show (_ && isIntegralQ q && _) = false
      rw [hintq, Bool.and_false, Bool.false_and]
  rw [hint, Bool.and_false, Bool.false_and]

/-- Claim C6, amended: for every component, if some row has a non-integral
coefficient on a non-continuous column, or a finite left-hand or right-hand
side that is not integral, the component is rejected before any engine call:
both call traces are empty and none of its columns is marked
implied-integer.  (The code treats an infinite side as admissible, so "not a
finite integer" is amended to "finite and not integral".) -/
theorem claim_C6 {σ : Type} (eng : ImpEngine σ) (d0 t0 : σ) (ratio : ℚ)
    (m : ImpMatrix) (j : Nat)
    (hj : j < (findImpliedIntegers eng d0 t0 ratio m).reports.length)
    (hbad : ∃ i ∈ ((findImpliedIntegers eng d0 t0 ratio m).reports.get ⟨j, hj⟩).rowsk,
      BadRowClaim m i) :
    ((findImpliedIntegers eng d0 t0 ratio m).reports.get ⟨j, hj⟩).okay = false ∧
    ((findImpliedIntegers eng d0 t0 ratio m).reports.get ⟨j, hj⟩).primalTrace = [] ∧
    ((findImpliedIntegers eng d0 t0 ratio m).reports.get ⟨j, hj⟩).transTrace = [] ∧
    ∀ c ∈ ((findImpliedIntegers eng d0 t0 ratio m).reports.get ⟨j, hj⟩).colsk,
      c ∉ (findImpliedIntegers eng d0 t0 ratio m).marked := by
  obtain ⟨reps, hrep, hmark, hlen, hgood⟩ := findImplied_spec eng d0 t0 ratio m
  have hjr : j < reps.length := hrep ▸ hj
  have hget : (findImpliedIntegers eng d0 t0 ratio m).reports.get ⟨j, hj⟩
      = reps.get ⟨j, hjr⟩ := list_get_eq_of_eq hrep hj hjr
  rw [hget] at hbad ⊢
  have hg := hgood j hjr
  have hokf : (reps.get ⟨j, hjr⟩).okay = false := by
    rw [hg.2.2.1, Bool.eq_false_iff]
    intro hall
    obtain ⟨i, himem, hbadi⟩ := hbad
    rw [hg.1] at himem
    have hrow := List.all_eq_true.mp hall i himem
    rw [badRow_not_okay hbadi] at hrow
    simp at hrow
  obtain ⟨htr1, htr2⟩ := hg.2.2.2.2.1 hokf
  refine ⟨hokf, htr1, htr2, ?_⟩
  intro c hcsub hcmark
  rw [hmark, List.mem_flatMap] at hcmark
  obtain ⟨r', hr'mem, hc'⟩ := hcmark
  obtain ⟨⟨j', hj'⟩, rfl⟩ := List.mem_iff_get.mp hr'mem
  have hcond : ((reps.get ⟨j', hj'⟩).okay &&
      ((reps.get ⟨j', hj'⟩).primalOk || (reps.get ⟨j', hj'⟩).transOk)) = true := by
    by_contra hcond
    unfold contribMark at hc'
    rw [if_neg hcond] at hc'
    exact absurd hc' (List.not_mem_nil c)
  have hcsub' : c ∈ (reps.get ⟨j', hj'⟩).colsk := by
    unfold contribMark at hc'
    rwa [if_pos hcond] at hc'
  have hg' := hgood j' hj'
  rw [hg.2.1] at hcsub
  rw [hg'.2.1] at hcsub'
  have hjj : j' = j := componentCols_disjoint hcsub' hcsub
  subst hjj
  rw [Bool.and_eq_true] at hcond
  rw [hokf] at hcond
  simp at hcond

/-- An engine that accepts every vector: used to instantiate the driver at
concrete inputs. -/
def trivEngine : ImpEngine Unit :=
  ⟨fun _ _ _ => ((), true), fun _ _ _ => ((), true), fun s _ _ => s⟩

/-- A one-row, one-column problem with a continuous variable: `x = 0`. -/
def mSmall : ImpMatrix := ⟨[true], [⟨some 0, some 0, [(0, 1)]⟩]⟩

/-- The driver's run on `mSmall` with the accept-all engine. -/
def mSmallRun : ImpRun Unit := findImpliedIntegers trivEngine () () 50 mSmall

theorem claim_C5_witness :
    ((mSmallRun.reports.get ⟨0, by decide⟩).rowwise = true ↔
      (((mSmallRun.reports.get ⟨0, by decide⟩).rowsk.length : ℚ) * 50
        < ((mSmallRun.reports.get ⟨0, by decide⟩).colsk.length : ℚ))) ∧
    ((mSmallRun.reports.get ⟨0, by decide⟩).rowwise = true →
      ∀ call ∈ (mSmallRun.reports.get ⟨0, by decide⟩).primalTrace,
        call.isRow = true) ∧
    ((mSmallRun.reports.get ⟨0, by decide⟩).rowwise = false →
      ∀ call ∈ (mSmallRun.reports.get ⟨0, by decide⟩).primalTrace,
        call.isRow = false) ∧
    defaultColumnrowratioQ = 50 ∧ columnrowratioMinQ = 0 ∧
    columnrowratioMaxQ = 10 ^ 12 :=
  claim_C5 trivEngine () () 50 mSmall 0 (by decide)

theorem claim_C10_witness :
    0 ∈ mSmallRun.marked ↔
      ((mSmallRun.reports.get ⟨0, by decide⟩).okay = true ∧
       ((mSmallRun.reports.get ⟨0, by decide⟩).primalOk = true ∨
        (mSmallRun.reports.get ⟨0, by decide⟩).transOk = true)) :=
  claim_C10 trivEngine () () 50 mSmall 0 (by decide) 0 (by decide)

/-- A one-row, one-column problem whose row has a finite non-integral
left-hand side. -/
def mC6w : ImpMatrix := ⟨[true], [⟨some (mkRat 1 2), some 0, [(0, 1)]⟩]⟩

/-- The driver's run on `mC6w` with the accept-all engine. -/
def mC6wRun : ImpRun Unit := findImpliedIntegers trivEngine () () 50 mC6w

theorem claim_C6_witness :
    (mC6wRun.reports.get ⟨0, by decide⟩).okay = false ∧
    (mC6wRun.reports.get ⟨0, by decide⟩).primalTrace = [] ∧
    (mC6wRun.reports.get ⟨0, by decide⟩).transTrace = [] ∧
    ∀ c ∈ (mC6wRun.reports.get ⟨0, by decide⟩).colsk, c ∉ mC6wRun.marked :=
  claim_C6 trivEngine () () 50 mC6w 0 (by decide)
    ⟨0, by decide, Or.inr (Or.inl ⟨mkRat 1 2, by decide, by decide⟩)⟩

/-- A one-row, one-column problem whose row's left-hand side is minus
infinity (not a finite integer) and whose continuous entry is `+1`. -/
def m6ce : ImpMatrix := ⟨[true], [⟨none, some 0, [(0, 1)]⟩]⟩

/-- Claim C6, counterexample: a component containing a row whose left-hand
side is not a finite integer (it is minus infinity) is nevertheless admitted:
the filter passes, the engine is called, and the component's column is marked
implied-integer — refuting "a side that is not a finite integer is
rejected before any engine call". -/
theorem claim_C6_counterexample :
    (getRow m6ce 0).lhs = none ∧
    (findImpliedIntegers trivEngine () () 50 m6ce).reports.map (fun r => r.okay)
      = [true] ∧
    (findImpliedIntegers trivEngine () () 50 m6ce).reports.map
      (fun r => r.primalTrace.length) = [1] ∧
    (findImpliedIntegers trivEngine () () 50 m6ce).marked = [0] := by decide

/-- A one-row, one-column problem whose only variable is an integer (not
continuous) variable: `x = 1`, a network matrix. -/
def m7ce : ImpMatrix := ⟨[false], [⟨some 1, some 1, [(0, 1)]⟩]⟩

/-- Claim C7 is a bug in the code: the `convertintegers` knob is documented
as enabling implied-integrality detection on integer columns, but its only
use is to skip the presolver when it is off and no continuous variable
exists.  Components are built exclusively over continuous columns, so with
the knob on, a problem whose integer column forms a network submatrix
produces no component, no engine call and no marking; with the knob off the
presolver exits early.  The integer column is never examined either way. -/
theorem claim_C7 :
    presolExecImplint trivEngine () () true 50 m7ce
      = some ⟨(), (), [], []⟩ ∧
    presolExecImplint trivEngine () () false 50 m7ce = none := by decide
